import Mathlib

/-!
# FIFO queues of the scheduler and of the non-blocking disk

A verification development for the two linked-list queues of the kernel:
`ReadyQueue` (MP5/scheduler.H) and `Queue<T>` (MP6/queue.H).

The embedding keeps the pointer structure of the source.  A pointer is a
natural number, `nullptr` is `0`.  The kernel heap holding the list nodes is a
finite map from addresses to nodes; `new` stores a node at the address chosen
by the allocator and `delete` removes the cell.  The two node types live in
two heaps, one per type.  The `while` loops run on fuel: a loop that has not
finished when the fuel is used up gives no result, and so does a dereference
of an address that holds no live node.
-/

namespace OSMP

/-- A pointer value: `Thread*`, `ThreadControlBlock*`, `Node*`, `T*`. -/
abbrev Ptr := Nat

/-- The null pointer. -/
abbrev nullptr : Ptr := 0

/-- The heap of objects of type `C`: the live cells, by address. -/
abbrev Heap (C : Type) := AList (fun _ : Ptr => C)

/-- The address `operator new` returns for the next object, given the live
cells.  The operator is not part of the sources at hand, so it is a parameter
of every operation that allocates. -/
abbrev Allocator (C : Type) := Heap C → Ptr

/-- What is assumed of `operator new`: the address it returns is not null and
holds no live object. -/
def Allocator.Sound {C : Type} (alloc : Allocator C) : Prop :=
  ∀ m : Heap C, alloc m ≠ nullptr ∧ m.lookup (alloc m) = none

/-- A concrete allocator: one past the largest live address. -/
def bumpAlloc {C : Type} : Allocator C :=
  fun m => m.keys.foldr max 0 + 1

/-! ## MP5/scheduler.H : `ThreadControlBlock` and `ReadyQueue` -/

/-- `class ThreadControlBlock { Thread* thread; ThreadControlBlock* next; }`. -/
structure ThreadControlBlock where
  thread : Ptr
  next : Ptr
deriving DecidableEq

/-- `class ReadyQueue { ThreadControlBlock* head; }`. -/
structure ReadyQueue where
  head : Ptr
deriving DecidableEq

namespace ReadyQueue

/-- `ReadyQueue() : head{nullptr} {}`. -/
def new : ReadyQueue := ⟨nullptr⟩

/-- The loop of `enqueue`, started with `current` a non-null pointer:
`while(current->next != nullptr) current = current->next;`.
The result is the value of `current` when the loop ends. -/
def lastNode (m : Heap ThreadControlBlock) : Nat → Ptr → Option Ptr
  | 0, _ => none
  | fuel + 1, current =>
    match m.lookup current with
    | none => none
    | some c => if c.next ≠ nullptr then lastNode m fuel c.next else some current

/-- `void enqueue(Thread* _thread)`. -/
def enqueue (alloc : Allocator ThreadControlBlock) (fuel : Nat)
    (m : Heap ThreadControlBlock) (q : ReadyQueue) (_thread : Ptr) :
    Option (Heap ThreadControlBlock × ReadyQueue) :=
  if q.head = nullptr then
    let p := alloc m
    some (m.insert p ⟨_thread, nullptr⟩, ⟨p⟩)
  else
    match lastNode m fuel q.head with
    | none => none
    | some current =>
      match m.lookup current with
      | none => none
      | some c =>
        let p := alloc m
        some ((m.insert p ⟨_thread, nullptr⟩).insert current ⟨c.thread, p⟩, q)

/-- `Thread* dequeue()`: the heap and the queue afterwards, and the value
returned. -/
def dequeue (m : Heap ThreadControlBlock) (q : ReadyQueue) :
    Option (Heap ThreadControlBlock × ReadyQueue × Ptr) :=
  if q.head = nullptr then some (m, q, nullptr)
  else
    match m.lookup q.head with
    | none => none
    | some current =>
      let top := current.thread
      some (m.erase q.head, ⟨current.next⟩, top)

/-- `~ReadyQueue()`: the heap and the queue afterwards, and the addresses
handed to `delete`, in the order of the calls. -/
def destroy : Nat → Heap ThreadControlBlock → ReadyQueue →
    Option (Heap ThreadControlBlock × ReadyQueue × List Ptr)
  | 0, m, q => if q.head = nullptr then some (m, q, []) else none
  | fuel + 1, m, q =>
    if q.head = nullptr then some (m, q, [])
    else
      match m.lookup q.head with
      | none => none
      | some temp =>
        match destroy fuel (m.erase q.head) ⟨temp.next⟩ with
        | none => none
        | some (m', q', freed) => some (m', q', q.head :: freed)

end ReadyQueue

/-! ## MP6/queue.H : `Queue<T>` -/

/-- `struct Node { T* data; Node* next; }` of `Queue<T>`. -/
structure Queue.Node where
  data : Ptr
  next : Ptr
deriving DecidableEq

/-- `template <typename T> class Queue { Node* head; }`.  The type `T` only
names what the stored pointers point to; the blocked queue of the disk is
`Queue<Thread>`. -/
structure Queue where
  head : Ptr
deriving DecidableEq

namespace Queue

/-- `Queue() : head{nullptr} {}`. -/
def new : Queue := ⟨nullptr⟩

/-- The loop of `enqueue`, started with `current` a non-null pointer:
`while(current->next != nullptr) current = current->next;`.
The result is the value of `current` when the loop ends. -/
def lastNode (m : Heap Queue.Node) : Nat → Ptr → Option Ptr
  | 0, _ => none
  | fuel + 1, current =>
    match m.lookup current with
    | none => none
    | some c => if c.next ≠ nullptr then lastNode m fuel c.next else some current

/-- `void enqueue(T* _data)`. -/
def enqueue (alloc : Allocator Queue.Node) (fuel : Nat)
    (m : Heap Queue.Node) (q : Queue) (_data : Ptr) :
    Option (Heap Queue.Node × Queue) :=
  if q.head = nullptr then
    let p := alloc m
    some (m.insert p ⟨_data, nullptr⟩, ⟨p⟩)
  else
    match lastNode m fuel q.head with
    | none => none
    | some current =>
      match m.lookup current with
      | none => none
      | some c =>
        let p := alloc m
        some ((m.insert p ⟨_data, nullptr⟩).insert current ⟨c.data, p⟩, q)

/-- `T* dequeue()`: the heap and the queue afterwards, and the value returned. -/
def dequeue (m : Heap Queue.Node) (q : Queue) :
    Option (Heap Queue.Node × Queue × Ptr) :=
  if q.head = nullptr then some (m, q, nullptr)
  else
    match m.lookup q.head with
    | none => none
    | some current =>
      let top := current.data
      some (m.erase q.head, ⟨current.next⟩, top)

/-- `~Queue()`: the heap and the queue afterwards, and the addresses handed to
`delete`, in the order of the calls. -/
def destroy : Nat → Heap Queue.Node → Queue →
    Option (Heap Queue.Node × Queue × List Ptr)
  | 0, m, q => if q.head = nullptr then some (m, q, []) else none
  | fuel + 1, m, q =>
    if q.head = nullptr then some (m, q, [])
    else
      match m.lookup q.head with
      | none => none
      | some temp =>
        match destroy fuel (m.erase q.head) ⟨temp.next⟩ with
        | none => none
        | some (m', q', freed) => some (m', q', q.head :: freed)

end Queue

/-! ## Lists in the heap -/

/-- The nodes of a list in the heap, from the pointer `p` to the null pointer:
the address of each node and the thread pointer it holds, head first. -/
def Chain (m : Heap ThreadControlBlock) : Ptr → List (Ptr × Ptr) → Prop
  | p, [] => p = nullptr
  | p, n :: ns =>
    p = n.1 ∧ p ≠ nullptr ∧
      match m.lookup p with
      | none => False
      | some c => c.thread = n.2 ∧ Chain m c.next ns

instance Chain.decidable (m : Heap ThreadControlBlock) :
    ∀ (p : Ptr) (ns : List (Ptr × Ptr)), Decidable (Chain m p ns)
  | p, [] => by unfold Chain; infer_instance
  | p, n :: ns => by
    unfold Chain
    cases h : m.lookup p with
    | none => simp only []; infer_instance
    | some c =>
      simp only []
      have := Chain.decidable m c.next ns
      infer_instance

/-- The nodes of a list of `Queue<T>` in the heap, from the pointer `p` to the
null pointer: the address of each node and the data pointer it holds, head
first. -/
def QChain (m : Heap Queue.Node) : Ptr → List (Ptr × Ptr) → Prop
  | p, [] => p = nullptr
  | p, n :: ns =>
    p = n.1 ∧ p ≠ nullptr ∧
      match m.lookup p with
      | none => False
      | some c => c.data = n.2 ∧ QChain m c.next ns

instance QChain.decidable (m : Heap Queue.Node) :
    ∀ (p : Ptr) (ns : List (Ptr × Ptr)), Decidable (QChain m p ns)
  | p, [] => by unfold QChain; infer_instance
  | p, n :: ns => by
    unfold QChain
    cases h : m.lookup p with
    | none => simp only []; infer_instance
    | some c =>
      simp only []
      have := QChain.decidable m c.next ns
      infer_instance

/-- The addresses of the nodes of a list. -/
abbrev addrs (ns : List (Ptr × Ptr)) : List Ptr := ns.map Prod.fst

/-- The thread pointers held by the nodes of a list, head first. -/
abbrev handles (ns : List (Ptr × Ptr)) : List Ptr := ns.map Prod.snd

/-! ## Sequences of calls -/

/-- One call on a queue: `enqueue(t)` or `dequeue()`. -/
inductive Op where
  | enqueue (t : Ptr)
  | dequeue
deriving DecidableEq

/-- The record of one call of `dequeue`: whether `head` was the null pointer
when the call was made, and the value the call returned. -/
structure Dequeued where
  onEmpty : Bool
  value : Ptr
deriving DecidableEq

/-- The thread pointers passed to `enqueue` in a sequence of calls, in order. -/
def enqueued : List Op → List Ptr
  | [] => []
  | Op.enqueue t :: ops => t :: enqueued ops
  | Op.dequeue :: ops => enqueued ops

/-- The values returned by the calls of `dequeue` that returned a thread
pointer (a value other than the null pointer), in order. -/
def returned (out : List Dequeued) : List Ptr :=
  (out.map Dequeued.value).filter (fun v => v ≠ nullptr)

/-- The number of calls of `dequeue` made while the queue had a node. -/
def removals (out : List Dequeued) : Nat :=
  (out.filter (fun d => !d.onEmpty)).length

/-- A sequence of calls on a `ReadyQueue`, from the heap `m` and the queue `q`:
the heap and the queue afterwards and the record of the calls of `dequeue`. -/
def ReadyQueue.run (alloc : Allocator ThreadControlBlock) (fuel : Nat) :
    List Op → Heap ThreadControlBlock → ReadyQueue →
      Option (Heap ThreadControlBlock × ReadyQueue × List Dequeued)
  | [], m, q => some (m, q, [])
  | Op.enqueue t :: ops, m, q =>
    match ReadyQueue.enqueue alloc fuel m q t with
    | none => none
    | some (m', q') => ReadyQueue.run alloc fuel ops m' q'
  | Op.dequeue :: ops, m, q =>
    match ReadyQueue.dequeue m q with
    | none => none
    | some (m', q', r) =>
      match ReadyQueue.run alloc fuel ops m' q' with
      | none => none
      | some (m'', q'', out) => some (m'', q'', ⟨decide (q.head = nullptr), r⟩ :: out)

/-- A sequence of calls on a `Queue<T>`, from the heap `m` and the queue `q`:
the heap and the queue afterwards and the record of the calls of `dequeue`. -/
def Queue.run (alloc : Allocator Queue.Node) (fuel : Nat) :
    List Op → Heap Queue.Node → Queue →
      Option (Heap Queue.Node × Queue × List Dequeued)
  | [], m, q => some (m, q, [])
  | Op.enqueue t :: ops, m, q =>
    match Queue.enqueue alloc fuel m q t with
    | none => none
    | some (m', q') => Queue.run alloc fuel ops m' q'
  | Op.dequeue :: ops, m, q =>
    match Queue.dequeue m q with
    | none => none
    | some (m', q', r) =>
      match Queue.run alloc fuel ops m' q' with
      | none => none
      | some (m'', q'', out) => some (m'', q'', ⟨decide (q.head = nullptr), r⟩ :: out)

/-- The same sequence of calls on the list of the thread pointers alone: the
list afterwards and the record of the calls of `dequeue`.  It is the yardstick
the runs in the heap are measured against in the proofs. -/
def listRun : List Op → List Ptr → List Ptr × List Dequeued
  | [], xs => (xs, [])
  | Op.enqueue t :: ops, xs => listRun ops (xs ++ [t])
  | Op.dequeue :: ops, xs =>
    ((listRun ops xs.tail).1, ⟨xs.isEmpty, xs.headD nullptr⟩ :: (listRun ops xs.tail).2)

/-- The cells of the heap `m` are those of `m0` and the nodes `ns`, which are
not cells of `m0`. -/
def Owned {C : Type} (m0 m : Heap C) (ns : List (Ptr × Ptr)) : Prop :=
  (∀ a, a ∈ ns.map Prod.fst → m0.lookup a = none) ∧
    ∀ a, a ∉ ns.map Prod.fst → m.lookup a = m0.lookup a

/-! ## Round robin over the ready queue -/

/-- One round-robin step: the running thread is enqueued, then the queue is
dequeued and what it returns runs next.  Result: the heap, the queue and the
thread running after the step. -/
def ReadyQueue.rotate (alloc : Allocator ThreadControlBlock) (fuel : Nat)
    (m : Heap ThreadControlBlock) (q : ReadyQueue) (running : Ptr) :
    Option (Heap ThreadControlBlock × ReadyQueue × Ptr) :=
  match ReadyQueue.enqueue alloc fuel m q running with
  | none => none
  | some (m', q') => ReadyQueue.dequeue m' q'

/-- The step `rotate` made `k` times.  Result: the heap, the queue and the
thread running at the end, and the threads dispatched, in order. -/
def ReadyQueue.rotations (alloc : Allocator ThreadControlBlock) (fuel : Nat) :
    Nat → Heap ThreadControlBlock → ReadyQueue → Ptr →
      Option (Heap ThreadControlBlock × ReadyQueue × Ptr × List Ptr)
  | 0, m, q, running => some (m, q, running, [])
  | k + 1, m, q, running =>
    match ReadyQueue.rotate alloc fuel m q running with
    | none => none
    | some (m', q', next) =>
      match ReadyQueue.rotations alloc fuel k m' q' next with
      | none => none
      | some (m'', q'', last, dispatched) => some (m'', q'', last, next :: dispatched)

/-- The step `rotate` on the list of the thread pointers alone, made `k`
times: the list and the thread running at the end, and the threads dispatched,
in order.  A yardstick for the proofs. -/
def listRotations : Nat → List Ptr → Ptr → List Ptr × Ptr × List Ptr
  | 0, xs, running => (xs, running, [])
  | k + 1, xs, running =>
    let next := (xs ++ [running]).headD nullptr
    let r := listRotations k (xs ++ [running]).tail next
    (r.1, r.2.1, next :: r.2.2)

/-! ## The ready queue and the blocked queue together -/

/-- The ready queue of the scheduler and the blocked queue of the disk
(`Queue<Thread>`), each with the heap of its nodes. -/
structure Queues where
  tcbs : Heap ThreadControlBlock
  ready : ReadyQueue
  nodes : Heap Queue.Node
  blocked : Queue

/-- The states reached from two freshly constructed queues by calls of
`dequeue` on either queue and by calls of `enqueue` on either queue whose
thread pointer is, when the call is made, held by no node of either queue. -/
inductive Disciplined (allocT : Allocator ThreadControlBlock) (allocN : Allocator Queue.Node) :
    Queues → Prop
  | fresh (mT : Heap ThreadControlBlock) (mN : Heap Queue.Node) :
      Disciplined allocT allocN ⟨mT, ReadyQueue.new, mN, Queue.new⟩
  | enqueueReady (s : Queues) (nsR nsB : List (Ptr × Ptr)) (t : Ptr) (fuel : Nat)
      (m' : Heap ThreadControlBlock) (q' : ReadyQueue) :
      Disciplined allocT allocN s →
      Chain s.tcbs s.ready.head nsR → QChain s.nodes s.blocked.head nsB →
      t ∉ nsR.map Prod.snd ++ nsB.map Prod.snd →
      ReadyQueue.enqueue allocT fuel s.tcbs s.ready t = some (m', q') →
      Disciplined allocT allocN ⟨m', q', s.nodes, s.blocked⟩
  | dequeueReady (s : Queues) (m' : Heap ThreadControlBlock) (q' : ReadyQueue) (r : Ptr) :
      Disciplined allocT allocN s →
      ReadyQueue.dequeue s.tcbs s.ready = some (m', q', r) →
      Disciplined allocT allocN ⟨m', q', s.nodes, s.blocked⟩
  | enqueueBlocked (s : Queues) (nsR nsB : List (Ptr × Ptr)) (t : Ptr) (fuel : Nat)
      (m' : Heap Queue.Node) (q' : Queue) :
      Disciplined allocT allocN s →
      Chain s.tcbs s.ready.head nsR → QChain s.nodes s.blocked.head nsB →
      t ∉ nsR.map Prod.snd ++ nsB.map Prod.snd →
      Queue.enqueue allocN fuel s.nodes s.blocked t = some (m', q') →
      Disciplined allocT allocN ⟨s.tcbs, s.ready, m', q'⟩
  | dequeueBlocked (s : Queues) (m' : Heap Queue.Node) (q' : Queue) (r : Ptr) :
      Disciplined allocT allocN s →
      Queue.dequeue s.nodes s.blocked = some (m', q', r) →
      Disciplined allocT allocN ⟨s.tcbs, s.ready, m', q'⟩

/-! ### The list in the heap -/

theorem chain_nil (m : Heap ThreadControlBlock) (p : Ptr) :
    Chain m p [] ↔ p = nullptr := by
  simp [Chain]

theorem chain_cons (m : Heap ThreadControlBlock) (p : Ptr) (n : Ptr × Ptr)
    (ns : List (Ptr × Ptr)) :
    Chain m p (n :: ns) ↔
      p = n.1 ∧ p ≠ nullptr ∧
        ∃ c, m.lookup p = some c ∧ c.thread = n.2 ∧ Chain m c.next ns := by
  rw [Chain]
  cases h : m.lookup p with
  | none => simp
  | some c => simp

theorem chain_head_eq_null_iff {m : Heap ThreadControlBlock} {p : Ptr}
    {ns : List (Ptr × Ptr)} (h : Chain m p ns) : p = nullptr ↔ ns = [] := by
  cases ns with
  | nil => simpa [chain_nil] using h
  | cons n ns =>
    rw [chain_cons] at h
    simp [h.2.1]

/-- Two heaps that agree on the nodes of a list hold the same list. -/
theorem chain_congr {m m' : Heap ThreadControlBlock} :
    ∀ (ns : List (Ptr × Ptr)) (p : Ptr),
      (∀ a ∈ addrs ns, m'.lookup a = m.lookup a) → Chain m p ns → Chain m' p ns
  | [], p, _, h => by simpa [chain_nil] using h
  | n :: ns, p, hag, h => by
    rw [chain_cons] at h ⊢
    obtain ⟨hp, hp0, c, hc, hth, hrest⟩ := h
    refine ⟨hp, hp0, c, ?_, hth, ?_⟩
    · rw [hag p (by simp [hp]), hc]
    · exact chain_congr ns c.next (fun a ha => hag a (by simp at ha ⊢; exact Or.inr ha)) hrest

/-- From a given pointer the heap holds at most one list. -/
theorem chain_unique {m : Heap ThreadControlBlock} :
    ∀ (ns ns' : List (Ptr × Ptr)) (p : Ptr), Chain m p ns → Chain m p ns' → ns = ns'
  | [], [], _, _, _ => rfl
  | [], n :: ns', p, h, h' => by
    rw [chain_nil] at h
    rw [chain_cons] at h'
    exact absurd h h'.2.1
  | n :: ns, [], p, h, h' => by
    rw [chain_nil] at h'
    rw [chain_cons] at h
    exact absurd h' h.2.1
  | n :: ns, n' :: ns', p, h, h' => by
    rw [chain_cons] at h h'
    obtain ⟨hp, _, c, hc, hth, hrest⟩ := h
    obtain ⟨hp', _, c', hc', hth', hrest'⟩ := h'
    rw [hc] at hc'
    cases hc'
    have hn : n = n' := Prod.ext (hp.symm.trans hp') (hth.symm.trans hth')
    rw [hn, chain_unique ns ns' c.next hrest hrest']

/-- Every node of a list is live and starts a list that is no longer. -/
theorem chain_of_mem {m : Heap ThreadControlBlock} :
    ∀ (ns : List (Ptr × Ptr)) (p a : Ptr), Chain m p ns → a ∈ addrs ns →
      ∃ ns', Chain m a ns' ∧ ns'.length ≤ ns.length ∧ m.lookup a ≠ none
  | [], _, _, _, ha => by simp at ha
  | n :: ns, p, a, h, ha => by
    have h0 := h
    rw [chain_cons] at h
    obtain ⟨hp, _, c, hc, _, hrest⟩ := h
    simp only [addrs, List.map_cons, List.mem_cons] at ha
    rcases ha with ha | ha
    · refine ⟨n :: ns, ?_, le_refl _, ?_⟩
      · rw [ha, ← hp]; exact h0
      · rw [ha, ← hp, hc]; simp
    · obtain ⟨ns', h1, h2, h3⟩ := chain_of_mem ns c.next a hrest ha
      exact ⟨ns', h1, by simp; omega, h3⟩

/-- The nodes of a list have pairwise distinct addresses. -/
theorem chain_nodup {m : Heap ThreadControlBlock} :
    ∀ (ns : List (Ptr × Ptr)) (p : Ptr), Chain m p ns → (addrs ns).Nodup
  | [], _, _ => by simp
  | n :: ns, p, h => by
    have h0 := h
    rw [chain_cons] at h
    obtain ⟨hp, _, c, _, _, hrest⟩ := h
    simp only [addrs, List.map_cons, List.nodup_cons]
    refine ⟨fun hmem => ?_, chain_nodup ns c.next hrest⟩
    obtain ⟨ns', h1, h2, _⟩ := chain_of_mem ns c.next n.1 hrest hmem
    rw [← hp] at h1
    have := chain_unique _ _ p h0 h1
    rw [← this] at h2
    simp at h2

theorem chain_not_null {m : Heap ThreadControlBlock} :
    ∀ (ns : List (Ptr × Ptr)) (p : Ptr), Chain m p ns → nullptr ∉ addrs ns
  | [], _, _ => by simp
  | n :: ns, p, h => by
    rw [chain_cons] at h
    obtain ⟨hp, hp0, c, _, _, hrest⟩ := h
    simp only [addrs, List.map_cons, List.mem_cons, not_or]
    exact ⟨fun h0 => hp0 (hp.trans h0.symm), chain_not_null ns c.next hrest⟩

theorem chain_live {m : Heap ThreadControlBlock} {ns : List (Ptr × Ptr)} {p a : Ptr}
    (h : Chain m p ns) (ha : a ∈ addrs ns) : m.lookup a ≠ none := by
  obtain ⟨_, _, _, h3⟩ := chain_of_mem ns p a h ha
  exact h3

/-- The loop of `enqueue` ends at the last node of the list. -/
theorem lastNode_chain {m : Heap ThreadControlBlock} :
    ∀ (fuel : Nat) (ns : List (Ptr × Ptr)) (l : Ptr × Ptr) (p : Ptr),
      Chain m p (ns ++ [l]) → ns.length + 1 ≤ fuel →
        ReadyQueue.lastNode m fuel p = some l.1 ∧ m.lookup l.1 = some ⟨l.2, nullptr⟩
  | 0, _, _, _, _, hf => by omega
  | fuel + 1, [], l, p, h, _ => by
    simp only [List.nil_append, chain_cons, chain_nil] at h
    obtain ⟨hp, _, c, hc, hth, hnx⟩ := h
    subst hp
    have hc' : c = ⟨l.2, nullptr⟩ := by cases c; simp_all
    subst hc'
    simp [ReadyQueue.lastNode, hc]
  | fuel + 1, n :: ns, l, p, h, hf => by
    rw [List.cons_append, chain_cons] at h
    obtain ⟨_, _, c, hc, _, hrest⟩ := h
    have hnx : c.next ≠ nullptr := by
      intro h0
      have := (chain_head_eq_null_iff hrest).1 h0
      simp at this
    have ih := lastNode_chain fuel ns l c.next hrest (by simp at hf; omega)
    simp [ReadyQueue.lastNode, hc, hnx, ih]

/-- Linking a new node behind the last node of a list appends it to the list. -/
theorem chain_snoc {m : Heap ThreadControlBlock} {a t : Ptr} (l : Ptr × Ptr)
    (ha0 : a ≠ nullptr) (ha : m.lookup a = none) :
    ∀ (ns : List (Ptr × Ptr)) (p : Ptr), Chain m p (ns ++ [l]) →
      Chain ((m.insert a ⟨t, nullptr⟩).insert l.1 ⟨l.2, a⟩) p (ns ++ [l] ++ [(a, t)])
  | [], p, h => by
    simp only [List.nil_append, chain_cons, chain_nil] at h
    obtain ⟨hp, hp0, c, hc, _, _⟩ := h
    subst hp
    have hne : a ≠ l.1 := fun e => by rw [e, hc] at ha; cases ha
    simp only [List.nil_append, List.singleton_append]
    rw [chain_cons]
    refine ⟨rfl, hp0, ⟨l.2, a⟩, AList.lookup_insert _, rfl, ?_⟩
    rw [chain_cons]
    refine ⟨rfl, ha0, ⟨t, nullptr⟩, ?_, rfl, ?_⟩
    · rw [AList.lookup_insert_ne hne, AList.lookup_insert]
    · rw [chain_nil]
  | n :: ns, p, h => by
    have hnd := chain_nodup _ p h
    rw [List.cons_append, chain_cons] at h
    obtain ⟨hp, hp0, c, hc, hth, hrest⟩ := h
    have hne : p ≠ a := fun e => by rw [e, ha] at hc; cases hc
    have hnl : p ≠ l.1 := by
      intro e
      have hmem : n.1 ∈ addrs (ns ++ [l]) := by
        rw [← hp, e]
        simp [addrs]
      simp only [addrs, List.cons_append, List.map_cons, List.nodup_cons] at hnd
      exact hnd.1 hmem
    simp only [List.cons_append]
    rw [chain_cons]
    refine ⟨hp, hp0, c, ?_, hth, ?_⟩
    · rw [AList.lookup_insert_ne hnl, AList.lookup_insert_ne hne, hc]
    · simpa using chain_snoc l ha0 ha ns c.next hrest

/-! ### The operations of `ReadyQueue` on a list in the heap -/

theorem rq_enqueue_spec {alloc : Allocator ThreadControlBlock} (hs : alloc.Sound)
    {m : Heap ThreadControlBlock} {q : ReadyQueue} {ns : List (Ptr × Ptr)} (t : Ptr)
    {fuel : Nat} (h : Chain m q.head ns) (hf : ns.length ≤ fuel) :
    ∃ m' q', ReadyQueue.enqueue alloc fuel m q t = some (m', q') ∧
      Chain m' q'.head (ns ++ [(alloc m, t)]) ∧
      (∀ a, a ∉ addrs ns → a ≠ alloc m → m'.lookup a = m.lookup a) := by
  obtain ⟨ha0, ha⟩ := hs m
  rcases List.eq_nil_or_concat ns with hnil | ⟨ns', l, hcat⟩
  · subst hnil
    have hq : q.head = nullptr := by simpa [chain_nil] using h
    refine ⟨m.insert (alloc m) ⟨t, nullptr⟩, ⟨alloc m⟩, by simp [ReadyQueue.enqueue, hq], ?_, ?_⟩
    · simp only [List.nil_append]
      rw [chain_cons]
      exact ⟨rfl, ha0, ⟨t, nullptr⟩, AList.lookup_insert _, rfl, by rw [chain_nil]⟩
    · intro a _ hne
      exact AList.lookup_insert_ne hne
  · rw [List.concat_eq_append] at hcat
    subst hcat
    have hq : q.head ≠ nullptr := by
      intro h0
      have := (chain_head_eq_null_iff h).1 h0
      simp at this
    obtain ⟨hl, hlk⟩ := lastNode_chain fuel ns' l q.head h (by simpa using hf)
    refine ⟨(m.insert (alloc m) ⟨t, nullptr⟩).insert l.1 ⟨l.2, alloc m⟩, q, ?_, ?_, ?_⟩
    · simp [ReadyQueue.enqueue, hq, hl, hlk]
    · exact chain_snoc l ha0 ha ns' q.head h
    · intro a hmem hne
      have hal : a ≠ l.1 := fun e => hmem (by simp [addrs, e])
      rw [AList.lookup_insert_ne hal, AList.lookup_insert_ne hne]

theorem rq_dequeue_spec {m : Heap ThreadControlBlock} {q : ReadyQueue} {n : Ptr × Ptr}
    {ns : List (Ptr × Ptr)} (h : Chain m q.head (n :: ns)) :
    ∃ nx, ReadyQueue.dequeue m q = some (m.erase n.1, ⟨nx⟩, n.2) ∧
      Chain (m.erase n.1) nx ns := by
  have hnd := chain_nodup _ _ h
  rw [chain_cons] at h
  obtain ⟨hp, hp0, c, hc, hth, hrest⟩ := h
  refine ⟨c.next, ?_, ?_⟩
  · simp [ReadyQueue.dequeue, hp0, hc, hth, ← hp]
  · refine chain_congr ns c.next (fun a hmem => AList.lookup_erase_ne ?_) hrest
    intro e
    simp only [addrs, List.map_cons, List.nodup_cons] at hnd
    exact hnd.1 (e ▸ hmem)

theorem rq_dequeue_null (m : Heap ThreadControlBlock) {q : ReadyQueue}
    (h : q.head = nullptr) : ReadyQueue.dequeue m q = some (m, q, nullptr) := by
  simp [ReadyQueue.dequeue, h]

theorem rq_destroy_spec :
    ∀ (fuel : Nat) (ns : List (Ptr × Ptr)) (m : Heap ThreadControlBlock) (q : ReadyQueue),
      Chain m q.head ns → ns.length ≤ fuel →
        ∃ m', ReadyQueue.destroy fuel m q = some (m', ⟨nullptr⟩, addrs ns) ∧
          ∀ a, m'.lookup a = if a ∈ addrs ns then none else m.lookup a
  | fuel, [], m, q, h, _ => by
    have hq : q.head = nullptr := by simpa [chain_nil] using h
    refine ⟨m, ?_, by simp⟩
    cases q
    cases fuel <;> simp_all [ReadyQueue.destroy]
  | 0, n :: ns, _, _, _, hf => by simp at hf
  | fuel + 1, n :: ns, m, q, h, hf => by
    obtain ⟨nx, hdq, hrest⟩ := rq_dequeue_spec h
    rw [chain_cons] at h
    obtain ⟨hp, hp0, c, hc, _, _⟩ := h
    obtain ⟨p⟩ := q
    simp only at hp hp0 hc
    subst hp
    have hnx : c.next = nx := by
      simp [ReadyQueue.dequeue, hp0, hc] at hdq
      exact hdq.1
    subst hnx
    obtain ⟨m', hd, hlk⟩ := rq_destroy_spec fuel ns (m.erase n.1) ⟨c.next⟩ hrest
      (by simpa using hf)
    refine ⟨m', ?_, ?_⟩
    · simp [ReadyQueue.destroy, hp0, hc, hd]
    · intro a
      rw [hlk a]
      by_cases h1 : a ∈ addrs ns
      · simp [h1]
      · by_cases h2 : a = n.1
        · subst h2
          simp [h1, AList.lookup_erase]
        · simp [h1, h2, AList.lookup_erase_ne h2]

/-! ### Runs of `ReadyQueue` against runs on the list of thread pointers -/

theorem rq_run_sim {alloc : Allocator ThreadControlBlock} (hs : alloc.Sound)
    (m0 : Heap ThreadControlBlock) (fuel : Nat) :
    ∀ (ops : List Op) (m : Heap ThreadControlBlock) (q : ReadyQueue) (ns : List (Ptr × Ptr)),
      Chain m q.head ns → Owned m0 m ns → ns.length + ops.length ≤ fuel →
        ∃ m' q' ns', ReadyQueue.run alloc fuel ops m q
              = some (m', q', (listRun ops (handles ns)).2) ∧
          Chain m' q'.head ns' ∧ Owned m0 m' ns' ∧
          handles ns' = (listRun ops (handles ns)).1
  | [], m, q, ns, h, ho, _ => ⟨m, q, ns, rfl, h, ho, rfl⟩
  | Op.enqueue t :: ops, m, q, ns, h, ho, hf => by
    obtain ⟨m1, q1, he, hc1, hfr⟩ :=
      rq_enqueue_spec hs t h (show ns.length ≤ fuel by simp at hf; omega)
    obtain ⟨ha0, ha⟩ := hs m
    have hnew : alloc m ∉ addrs ns := fun hmem => chain_live h hmem ha
    have ho1 : Owned m0 m1 (ns ++ [(alloc m, t)]) := by
      constructor
      · intro a hmem
        simp only [List.map_append, List.map_cons, List.map_nil, List.mem_append,
          List.mem_singleton] at hmem
        rcases hmem with hmem | hmem
        · exact ho.1 a hmem
        · rw [hmem, ← ho.2 _ hnew, ha]
      · intro a hmem
        simp only [List.map_append, List.map_cons, List.map_nil, List.mem_append,
          List.mem_singleton, not_or] at hmem
        rw [hfr a hmem.1 hmem.2, ho.2 a hmem.1]
    obtain ⟨m', q', ns', hr, hc', ho', hh⟩ :=
      rq_run_sim hs m0 fuel ops m1 q1 _ hc1 ho1 (by simp at hf ⊢; omega)
    refine ⟨m', q', ns', ?_, hc', ho', ?_⟩
    · simp only [ReadyQueue.run, he, hr, listRun]
      simp [handles]
    · simpa [listRun, handles] using hh
  | Op.dequeue :: ops, m, q, [], h, ho, hf => by
    have hq : q.head = nullptr := by simpa [chain_nil] using h
    obtain ⟨m', q', ns', hr, hc', ho', hh⟩ :=
      rq_run_sim hs m0 fuel ops m q [] h ho (by simp at hf ⊢; omega)
    refine ⟨m', q', ns', ?_, hc', ho', ?_⟩
    · simp only [ReadyQueue.run, rq_dequeue_null m hq, hr, listRun]
      simp [handles, hq]
    · simpa [listRun, handles] using hh
  | Op.dequeue :: ops, m, q, n :: ns, h, ho, hf => by
    have hnd := chain_nodup _ _ h
    have hq : q.head ≠ nullptr := by
      rw [chain_cons] at h
      exact h.2.1
    obtain ⟨nx, hd, hc1⟩ := rq_dequeue_spec h
    have ho1 : Owned m0 (m.erase n.1) ns := by
      simp only [addrs, List.map_cons, List.nodup_cons] at hnd
      constructor
      · intro a hmem
        exact ho.1 a (by simp [hmem])
      · intro a hmem
        by_cases e : a = n.1
        · rw [e, AList.lookup_erase, ho.1 n.1 (by simp)]
        · rw [AList.lookup_erase_ne e]
          exact ho.2 a (by simp [e, hmem])
    obtain ⟨m', q', ns', hr, hc', ho', hh⟩ :=
      rq_run_sim hs m0 fuel ops (m.erase n.1) ⟨nx⟩ ns hc1 ho1 (by simp at hf ⊢; omega)
    refine ⟨m', q', ns', ?_, hc', ho', ?_⟩
    · simp only [ReadyQueue.run, hd, hr, listRun]
      simp [handles, hq]
    · simpa [listRun, handles] using hh

/-! ### The list of `Queue<T>` in the heap -/

theorem qchain_nil (m : Heap Queue.Node) (p : Ptr) :
    QChain m p [] ↔ p = nullptr := by
  simp [QChain]

theorem qchain_cons (m : Heap Queue.Node) (p : Ptr) (n : Ptr × Ptr)
    (ns : List (Ptr × Ptr)) :
    QChain m p (n :: ns) ↔
      p = n.1 ∧ p ≠ nullptr ∧
        ∃ c, m.lookup p = some c ∧ c.data = n.2 ∧ QChain m c.next ns := by
  rw [QChain]
  cases h : m.lookup p with
  | none => simp
  | some c => simp

theorem qchain_head_eq_null_iff {m : Heap Queue.Node} {p : Ptr}
    {ns : List (Ptr × Ptr)} (h : QChain m p ns) : p = nullptr ↔ ns = [] := by
  cases ns with
  | nil => simpa [qchain_nil] using h
  | cons n ns =>
    rw [qchain_cons] at h
    simp [h.2.1]

/-- Two heaps that agree on the nodes of a list hold the same list. -/
theorem qchain_congr {m m' : Heap Queue.Node} :
    ∀ (ns : List (Ptr × Ptr)) (p : Ptr),
      (∀ a ∈ addrs ns, m'.lookup a = m.lookup a) → QChain m p ns → QChain m' p ns
  | [], p, _, h => by simpa [qchain_nil] using h
  | n :: ns, p, hag, h => by
    rw [qchain_cons] at h ⊢
    obtain ⟨hp, hp0, c, hc, hth, hrest⟩ := h
    refine ⟨hp, hp0, c, ?_, hth, ?_⟩
    · rw [hag p (by simp [hp]), hc]
    · exact qchain_congr ns c.next (fun a ha => hag a (by simp at ha ⊢; exact Or.inr ha)) hrest

/-- From a given pointer the heap holds at most one list. -/
theorem qchain_unique {m : Heap Queue.Node} :
    ∀ (ns ns' : List (Ptr × Ptr)) (p : Ptr), QChain m p ns → QChain m p ns' → ns = ns'
  | [], [], _, _, _ => rfl
  | [], n :: ns', p, h, h' => by
    rw [qchain_nil] at h
    rw [qchain_cons] at h'
    exact absurd h h'.2.1
  | n :: ns, [], p, h, h' => by
    rw [qchain_nil] at h'
    rw [qchain_cons] at h
    exact absurd h' h.2.1
  | n :: ns, n' :: ns', p, h, h' => by
    rw [qchain_cons] at h h'
    obtain ⟨hp, _, c, hc, hth, hrest⟩ := h
    obtain ⟨hp', _, c', hc', hth', hrest'⟩ := h'
    rw [hc] at hc'
    cases hc'
    have hn : n = n' := Prod.ext (hp.symm.trans hp') (hth.symm.trans hth')
    rw [hn, qchain_unique ns ns' c.next hrest hrest']

/-- Every node of a list is live and starts a list that is no longer. -/
theorem qchain_of_mem {m : Heap Queue.Node} :
    ∀ (ns : List (Ptr × Ptr)) (p a : Ptr), QChain m p ns → a ∈ addrs ns →
      ∃ ns', QChain m a ns' ∧ ns'.length ≤ ns.length ∧ m.lookup a ≠ none
  | [], _, _, _, ha => by simp at ha
  | n :: ns, p, a, h, ha => by
    have h0 := h
    rw [qchain_cons] at h
    obtain ⟨hp, _, c, hc, _, hrest⟩ := h
    simp only [addrs, List.map_cons, List.mem_cons] at ha
    rcases ha with ha | ha
    · refine ⟨n :: ns, ?_, le_refl _, ?_⟩
      · rw [ha, ← hp]; exact h0
      · rw [ha, ← hp, hc]; simp
    · obtain ⟨ns', h1, h2, h3⟩ := qchain_of_mem ns c.next a hrest ha
      exact ⟨ns', h1, by simp; omega, h3⟩

/-- The nodes of a list have pairwise distinct addresses. -/
theorem qchain_nodup {m : Heap Queue.Node} :
    ∀ (ns : List (Ptr × Ptr)) (p : Ptr), QChain m p ns → (addrs ns).Nodup
  | [], _, _ => by simp
  | n :: ns, p, h => by
    have h0 := h
    rw [qchain_cons] at h
    obtain ⟨hp, _, c, _, _, hrest⟩ := h
    simp only [addrs, List.map_cons, List.nodup_cons]
    refine ⟨fun hmem => ?_, qchain_nodup ns c.next hrest⟩
    obtain ⟨ns', h1, h2, _⟩ := qchain_of_mem ns c.next n.1 hrest hmem
    rw [← hp] at h1
    have := qchain_unique _ _ p h0 h1
    rw [← this] at h2
    simp at h2

theorem qchain_not_null {m : Heap Queue.Node} :
    ∀ (ns : List (Ptr × Ptr)) (p : Ptr), QChain m p ns → nullptr ∉ addrs ns
  | [], _, _ => by simp
  | n :: ns, p, h => by
    rw [qchain_cons] at h
    obtain ⟨hp, hp0, c, _, _, hrest⟩ := h
    simp only [addrs, List.map_cons, List.mem_cons, not_or]
    exact ⟨fun h0 => hp0 (hp.trans h0.symm), qchain_not_null ns c.next hrest⟩

theorem qchain_live {m : Heap Queue.Node} {ns : List (Ptr × Ptr)} {p a : Ptr}
    (h : QChain m p ns) (ha : a ∈ addrs ns) : m.lookup a ≠ none := by
  obtain ⟨_, _, _, h3⟩ := qchain_of_mem ns p a h ha
  exact h3

/-- The loop of `enqueue` ends at the last node of the list. -/
theorem lastNode_qchain {m : Heap Queue.Node} :
    ∀ (fuel : Nat) (ns : List (Ptr × Ptr)) (l : Ptr × Ptr) (p : Ptr),
      QChain m p (ns ++ [l]) → ns.length + 1 ≤ fuel →
        Queue.lastNode m fuel p = some l.1 ∧ m.lookup l.1 = some ⟨l.2, nullptr⟩
  | 0, _, _, _, _, hf => by omega
  | fuel + 1, [], l, p, h, _ => by
    simp only [List.nil_append, qchain_cons, qchain_nil] at h
    obtain ⟨hp, _, c, hc, hth, hnx⟩ := h
    subst hp
    have hc' : c = ⟨l.2, nullptr⟩ := by cases c; simp_all
    subst hc'
    simp [Queue.lastNode, hc]
  | fuel + 1, n :: ns, l, p, h, hf => by
    rw [List.cons_append, qchain_cons] at h
    obtain ⟨_, _, c, hc, _, hrest⟩ := h
    have hnx : c.next ≠ nullptr := by
      intro h0
      have := (qchain_head_eq_null_iff hrest).1 h0
      simp at this
    have ih := lastNode_qchain fuel ns l c.next hrest (by simp at hf; omega)
    simp [Queue.lastNode, hc, hnx, ih]

/-- Linking a new node behind the last node of a list appends it to the list. -/
theorem qchain_snoc {m : Heap Queue.Node} {a t : Ptr} (l : Ptr × Ptr)
    (ha0 : a ≠ nullptr) (ha : m.lookup a = none) :
    ∀ (ns : List (Ptr × Ptr)) (p : Ptr), QChain m p (ns ++ [l]) →
      QChain ((m.insert a ⟨t, nullptr⟩).insert l.1 ⟨l.2, a⟩) p (ns ++ [l] ++ [(a, t)])
  | [], p, h => by
    simp only [List.nil_append, qchain_cons, qchain_nil] at h
    obtain ⟨hp, hp0, c, hc, _, _⟩ := h
    subst hp
    have hne : a ≠ l.1 := fun e => by rw [e, hc] at ha; cases ha
    simp only [List.nil_append, List.singleton_append]
    rw [qchain_cons]
    refine ⟨rfl, hp0, ⟨l.2, a⟩, AList.lookup_insert _, rfl, ?_⟩
    rw [qchain_cons]
    refine ⟨rfl, ha0, ⟨t, nullptr⟩, ?_, rfl, ?_⟩
    · rw [AList.lookup_insert_ne hne, AList.lookup_insert]
    · rw [qchain_nil]
  | n :: ns, p, h => by
    have hnd := qchain_nodup _ p h
    rw [List.cons_append, qchain_cons] at h
    obtain ⟨hp, hp0, c, hc, hth, hrest⟩ := h
    have hne : p ≠ a := fun e => by rw [e, ha] at hc; cases hc
    have hnl : p ≠ l.1 := by
      intro e
      have hmem : n.1 ∈ addrs (ns ++ [l]) := by
        rw [← hp, e]
        simp [addrs]
      simp only [addrs, List.cons_append, List.map_cons, List.nodup_cons] at hnd
      exact hnd.1 hmem
    simp only [List.cons_append]
    rw [qchain_cons]
    refine ⟨hp, hp0, c, ?_, hth, ?_⟩
    · rw [AList.lookup_insert_ne hnl, AList.lookup_insert_ne hne, hc]
    · simpa using qchain_snoc l ha0 ha ns c.next hrest

/-! ### The operations of `Queue<T>` on a list in the heap -/

theorem bq_enqueue_spec {alloc : Allocator Queue.Node} (hs : alloc.Sound)
    {m : Heap Queue.Node} {q : Queue} {ns : List (Ptr × Ptr)} (t : Ptr)
    {fuel : Nat} (h : QChain m q.head ns) (hf : ns.length ≤ fuel) :
    ∃ m' q', Queue.enqueue alloc fuel m q t = some (m', q') ∧
      QChain m' q'.head (ns ++ [(alloc m, t)]) ∧
      (∀ a, a ∉ addrs ns → a ≠ alloc m → m'.lookup a = m.lookup a) := by
  obtain ⟨ha0, ha⟩ := hs m
  rcases List.eq_nil_or_concat ns with hnil | ⟨ns', l, hcat⟩
  · subst hnil
    have hq : q.head = nullptr := by simpa [qchain_nil] using h
    refine ⟨m.insert (alloc m) ⟨t, nullptr⟩, ⟨alloc m⟩, by simp [Queue.enqueue, hq], ?_, ?_⟩
    · simp only [List.nil_append]
      rw [qchain_cons]
      exact ⟨rfl, ha0, ⟨t, nullptr⟩, AList.lookup_insert _, rfl, by rw [qchain_nil]⟩
    · intro a _ hne
      exact AList.lookup_insert_ne hne
  · rw [List.concat_eq_append] at hcat
    subst hcat
    have hq : q.head ≠ nullptr := by
      intro h0
      have := (qchain_head_eq_null_iff h).1 h0
      simp at this
    obtain ⟨hl, hlk⟩ := lastNode_qchain fuel ns' l q.head h (by simpa using hf)
    refine ⟨(m.insert (alloc m) ⟨t, nullptr⟩).insert l.1 ⟨l.2, alloc m⟩, q, ?_, ?_, ?_⟩
    · simp [Queue.enqueue, hq, hl, hlk]
    · exact qchain_snoc l ha0 ha ns' q.head h
    · intro a hmem hne
      have hal : a ≠ l.1 := fun e => hmem (by simp [addrs, e])
      rw [AList.lookup_insert_ne hal, AList.lookup_insert_ne hne]

theorem bq_dequeue_spec {m : Heap Queue.Node} {q : Queue} {n : Ptr × Ptr}
    {ns : List (Ptr × Ptr)} (h : QChain m q.head (n :: ns)) :
    ∃ nx, Queue.dequeue m q = some (m.erase n.1, ⟨nx⟩, n.2) ∧
      QChain (m.erase n.1) nx ns := by
  have hnd := qchain_nodup _ _ h
  rw [qchain_cons] at h
  obtain ⟨hp, hp0, c, hc, hth, hrest⟩ := h
  refine ⟨c.next, ?_, ?_⟩
  · simp [Queue.dequeue, hp0, hc, hth, ← hp]
  · refine qchain_congr ns c.next (fun a hmem => AList.lookup_erase_ne ?_) hrest
    intro e
    simp only [addrs, List.map_cons, List.nodup_cons] at hnd
    exact hnd.1 (e ▸ hmem)

theorem bq_dequeue_null (m : Heap Queue.Node) {q : Queue}
    (h : q.head = nullptr) : Queue.dequeue m q = some (m, q, nullptr) := by
  simp [Queue.dequeue, h]

theorem bq_destroy_spec :
    ∀ (fuel : Nat) (ns : List (Ptr × Ptr)) (m : Heap Queue.Node) (q : Queue),
      QChain m q.head ns → ns.length ≤ fuel →
        ∃ m', Queue.destroy fuel m q = some (m', ⟨nullptr⟩, addrs ns) ∧
          ∀ a, m'.lookup a = if a ∈ addrs ns then none else m.lookup a
  | fuel, [], m, q, h, _ => by
    have hq : q.head = nullptr := by simpa [qchain_nil] using h
    refine ⟨m, ?_, by simp⟩
    cases q
    cases fuel <;> simp_all [Queue.destroy]
  | 0, n :: ns, _, _, _, hf => by simp at hf
  | fuel + 1, n :: ns, m, q, h, hf => by
    obtain ⟨nx, hdq, hrest⟩ := bq_dequeue_spec h
    rw [qchain_cons] at h
    obtain ⟨hp, hp0, c, hc, _, _⟩ := h
    obtain ⟨p⟩ := q
    simp only at hp hp0 hc
    subst hp
    have hnx : c.next = nx := by
      simp [Queue.dequeue, hp0, hc] at hdq
      exact hdq.1
    subst hnx
    obtain ⟨m', hd, hlk⟩ := bq_destroy_spec fuel ns (m.erase n.1) ⟨c.next⟩ hrest
      (by simpa using hf)
    refine ⟨m', ?_, ?_⟩
    · simp [Queue.destroy, hp0, hc, hd]
    · intro a
      rw [hlk a]
      by_cases h1 : a ∈ addrs ns
      · simp [h1]
      · by_cases h2 : a = n.1
        · subst h2
          simp [h1, AList.lookup_erase]
        · simp [h1, h2, AList.lookup_erase_ne h2]

/-! ### Runs of `Queue<T>` against runs on the list of thread pointers -/

theorem bq_run_sim {alloc : Allocator Queue.Node} (hs : alloc.Sound)
    (m0 : Heap Queue.Node) (fuel : Nat) :
    ∀ (ops : List Op) (m : Heap Queue.Node) (q : Queue) (ns : List (Ptr × Ptr)),
      QChain m q.head ns → Owned m0 m ns → ns.length + ops.length ≤ fuel →
        ∃ m' q' ns', Queue.run alloc fuel ops m q
              = some (m', q', (listRun ops (handles ns)).2) ∧
          QChain m' q'.head ns' ∧ Owned m0 m' ns' ∧
          handles ns' = (listRun ops (handles ns)).1
  | [], m, q, ns, h, ho, _ => ⟨m, q, ns, rfl, h, ho, rfl⟩
  | Op.enqueue t :: ops, m, q, ns, h, ho, hf => by
    obtain ⟨m1, q1, he, hc1, hfr⟩ :=
      bq_enqueue_spec hs t h (show ns.length ≤ fuel by simp at hf; omega)
    obtain ⟨ha0, ha⟩ := hs m
    have hnew : alloc m ∉ addrs ns := fun hmem => qchain_live h hmem ha
    have ho1 : Owned m0 m1 (ns ++ [(alloc m, t)]) := by
      constructor
      · intro a hmem
        simp only [List.map_append, List.map_cons, List.map_nil, List.mem_append,
          List.mem_singleton] at hmem
        rcases hmem with hmem | hmem
        · exact ho.1 a hmem
        · rw [hmem, ← ho.2 _ hnew, ha]
      · intro a hmem
        simp only [List.map_append, List.map_cons, List.map_nil, List.mem_append,
          List.mem_singleton, not_or] at hmem
        rw [hfr a hmem.1 hmem.2, ho.2 a hmem.1]
    obtain ⟨m', q', ns', hr, hc', ho', hh⟩ :=
      bq_run_sim hs m0 fuel ops m1 q1 _ hc1 ho1 (by simp at hf ⊢; omega)
    refine ⟨m', q', ns', ?_, hc', ho', ?_⟩
    · simp only [Queue.run, he, hr, listRun]
      simp [handles]
    · simpa [listRun, handles] using hh
  | Op.dequeue :: ops, m, q, [], h, ho, hf => by
    have hq : q.head = nullptr := by simpa [qchain_nil] using h
    obtain ⟨m', q', ns', hr, hc', ho', hh⟩ :=
      bq_run_sim hs m0 fuel ops m q [] h ho (by simp at hf ⊢; omega)
    refine ⟨m', q', ns', ?_, hc', ho', ?_⟩
    · simp only [Queue.run, bq_dequeue_null m hq, hr, listRun]
      simp [handles, hq]
    · simpa [listRun, handles] using hh
  | Op.dequeue :: ops, m, q, n :: ns, h, ho, hf => by
    have hnd := qchain_nodup _ _ h
    have hq : q.head ≠ nullptr := by
      rw [qchain_cons] at h
      exact h.2.1
    obtain ⟨nx, hd, hc1⟩ := bq_dequeue_spec h
    have ho1 : Owned m0 (m.erase n.1) ns := by
      simp only [addrs, List.map_cons, List.nodup_cons] at hnd
      constructor
      · intro a hmem
        exact ho.1 a (by simp [hmem])
      · intro a hmem
        by_cases e : a = n.1
        · rw [e, AList.lookup_erase, ho.1 n.1 (by simp)]
        · rw [AList.lookup_erase_ne e]
          exact ho.2 a (by simp [e, hmem])
    obtain ⟨m', q', ns', hr, hc', ho', hh⟩ :=
      bq_run_sim hs m0 fuel ops (m.erase n.1) ⟨nx⟩ ns hc1 ho1 (by simp at hf ⊢; omega)
    refine ⟨m', q', ns', ?_, hc', ho', ?_⟩
    · simp only [Queue.run, hd, hr, listRun]
      simp [handles, hq]
    · simpa [listRun, handles] using hh

/-! ### Runs on the list of thread pointers -/

/-- First in, first out: the thread pointers taken out, followed by those
left, are the thread pointers put in. -/
theorem listRun_fifo :
    ∀ (ops : List Op) (xs : List Ptr),
      ((listRun ops xs).2.filter (fun d => !d.onEmpty)).map Dequeued.value ++ (listRun ops xs).1
        = xs ++ enqueued ops
  | [], xs => by simp [listRun, enqueued]
  | Op.enqueue t :: ops, xs => by
    simpa [listRun, enqueued] using listRun_fifo ops (xs ++ [t])
  | Op.dequeue :: ops, [] => by
    simpa [listRun, enqueued] using listRun_fifo ops []
  | Op.dequeue :: ops, x :: xs => by
    simpa [listRun, enqueued] using listRun_fifo ops xs

/-- A call of `dequeue` on a queue without nodes returns the null pointer, and
one on a queue with nodes returns a thread pointer that was in the queue or
was put in. -/
theorem listRun_values :
    ∀ (ops : List Op) (xs : List Ptr) (d : Dequeued), d ∈ (listRun ops xs).2 →
      (d.onEmpty = true → d.value = nullptr) ∧
        (d.onEmpty = false → d.value ∈ xs ++ enqueued ops)
  | [], xs, d, hd => by simp [listRun] at hd
  | Op.enqueue t :: ops, xs, d, hd => by
    have := listRun_values ops (xs ++ [t]) d (by simpa [listRun] using hd)
    simpa [enqueued] using this
  | Op.dequeue :: ops, [], d, hd => by
    simp only [listRun, List.mem_cons] at hd
    rcases hd with hd | hd
    · subst hd
      simp
    · simpa [enqueued] using listRun_values ops [] d (by simpa using hd)
  | Op.dequeue :: ops, x :: xs, d, hd => by
    simp only [listRun, List.mem_cons] at hd
    rcases hd with hd | hd
    · subst hd
      simp
    · have := listRun_values ops xs d (by simpa using hd)
      refine ⟨this.1, fun h => ?_⟩
      have := this.2 h
      simp only [enqueued, List.mem_append, List.mem_cons] at this ⊢
      tauto

/-- When the null pointer is returned exactly by the calls made on a queue
without nodes, the thread pointers returned are the ones taken out. -/
theorem returned_eq_removed :
    ∀ (out : List Dequeued),
      (∀ d ∈ out, (d.onEmpty = true → d.value = nullptr) ∧
        (d.onEmpty = false → d.value ≠ nullptr)) →
      returned out = (out.filter (fun d => !d.onEmpty)).map Dequeued.value
  | [], _ => rfl
  | d :: out, h => by
    have ih := returned_eq_removed out (fun e he => h e (List.mem_cons_of_mem _ he))
    have hd := h d (List.mem_cons_self _ _)
    simp only [returned, List.map_cons] at ih ⊢
    cases hb : d.onEmpty with
    | true => simpa [hd.1 hb, hb] using ih
    | false => simpa [hd.2 hb, hb] using ih

/-- With only non-null thread pointers put in, a run from the queue without
nodes returns the null pointer exactly on the calls made without nodes. -/
theorem listRun_null_iff (ops : List Op) (hnn : ∀ t ∈ enqueued ops, t ≠ nullptr) :
    ∀ d ∈ (listRun ops []).2, (d.onEmpty = true → d.value = nullptr) ∧
      (d.onEmpty = false → d.value ≠ nullptr) := by
  intro d hd
  have := listRun_values ops [] d hd
  exact ⟨this.1, fun h => hnn _ (by simpa using this.2 h)⟩

/-- A run on a freshly constructed `ReadyQueue` returns, and ends with the
queue holding the thread pointers that the run on the list ends with. -/
theorem rq_run_fresh {alloc : Allocator ThreadControlBlock} (hs : alloc.Sound)
    (m0 : Heap ThreadControlBlock) {fuel : Nat} (ops : List Op) (hf : ops.length ≤ fuel) :
    ∃ m q ns, ReadyQueue.run alloc fuel ops m0 ReadyQueue.new
          = some (m, q, (listRun ops []).2) ∧
      Chain m q.head ns ∧ Owned m0 m ns ∧ handles ns = (listRun ops []).1 := by
  have := rq_run_sim hs m0 fuel ops m0 ReadyQueue.new []
    (by simp [chain_nil, ReadyQueue.new]) ⟨by simp, by simp⟩ (by simpa using hf)
  simpa [handles] using this

/-- A run on a freshly constructed `Queue` returns, and ends with the
queue holding the thread pointers that the run on the list ends with. -/
theorem bq_run_fresh {alloc : Allocator Queue.Node} (hs : alloc.Sound)
    (m0 : Heap Queue.Node) {fuel : Nat} (ops : List Op) (hf : ops.length ≤ fuel) :
    ∃ m q ns, Queue.run alloc fuel ops m0 Queue.new
          = some (m, q, (listRun ops []).2) ∧
      QChain m q.head ns ∧ Owned m0 m ns ∧ handles ns = (listRun ops []).1 := by
  have := bq_run_sim hs m0 fuel ops m0 Queue.new []
    (by simp [qchain_nil, Queue.new]) ⟨by simp, by simp⟩ (by simpa using hf)
  simpa [handles] using this

/-- The thread pointers left by a run on the list were put in. -/
theorem listRun_left_subset (ops : List Op) :
    ∀ t ∈ (listRun ops []).1, t ∈ enqueued ops := by
  intro t ht
  have := listRun_fifo ops []
  rw [List.nil_append] at this
  rw [← this]
  exact List.mem_append_right _ ht

/-! ### Round robin -/

theorem rq_rotations_sim {alloc : Allocator ThreadControlBlock} (hs : alloc.Sound)
    (fuel : Nat) :
    ∀ (k : Nat) (m : Heap ThreadControlBlock) (q : ReadyQueue) (ns : List (Ptr × Ptr))
      (running : Ptr), Chain m q.head ns → ns.length ≤ fuel →
        ∃ m' q' ns', ReadyQueue.rotations alloc fuel k m q running
              = some (m', q', (listRotations k (handles ns) running).2.1,
                  (listRotations k (handles ns) running).2.2) ∧
          Chain m' q'.head ns' ∧ handles ns' = (listRotations k (handles ns) running).1
  | 0, m, q, ns, running, h, _ => ⟨m, q, ns, rfl, h, rfl⟩
  | k + 1, m, q, ns, running, h, hf => by
    obtain ⟨m1, q1, he, hc1, _⟩ := rq_enqueue_spec hs running h hf
    cases ns with
    | nil =>
      obtain ⟨nx, hd, hc2⟩ := rq_dequeue_spec
        (show Chain m1 q1.head ((alloc m, running) :: []) by simpa using hc1)
      obtain ⟨m', q', ns', hr, hc', hh⟩ :=
        rq_rotations_sim hs fuel k _ ⟨nx⟩ [] running hc2 (Nat.zero_le _)
      refine ⟨m', q', ns', ?_, hc', ?_⟩
      · simp only [ReadyQueue.rotations, ReadyQueue.rotate, he, hd]
        simp only [handles, List.map_nil] at hr
        simp [hr, listRotations, handles]
      · simpa [listRotations, handles] using hh
    | cons n ns =>
      obtain ⟨nx, hd, hc2⟩ :=
        rq_dequeue_spec
          (show Chain m1 q1.head (n :: (ns ++ [(alloc m, running)])) by simpa using hc1)
      obtain ⟨m', q', ns', hr, hc', hh⟩ :=
        rq_rotations_sim hs fuel k _ ⟨nx⟩ (ns ++ [(alloc m, running)]) n.2 hc2
          (by simp at hf ⊢; omega)
      refine ⟨m', q', ns', ?_, hc', ?_⟩
      · simp only [ReadyQueue.rotations, ReadyQueue.rotate, he, hd]
        simp only [handles, List.map_append, List.map_cons, List.map_nil] at hr
        simp [hr, listRotations, handles]
      · simpa [listRotations, handles] using hh

theorem listRotations_succ (k : Nat) (xs : List Ptr) (running : Ptr) :
    listRotations (k + 1) xs running
      = ((listRotations k (xs ++ [running]).tail ((xs ++ [running]).headD nullptr)).1,
          (listRotations k (xs ++ [running]).tail ((xs ++ [running]).headD nullptr)).2.1,
          (xs ++ [running]).headD nullptr ::
            (listRotations k (xs ++ [running]).tail ((xs ++ [running]).headD nullptr)).2.2) :=
  rfl

/-- When the queue followed by the running thread reads `pre ++ x :: ys`, then
`pre.length + 1` steps dispatch `pre` and then `x`, and leave `ys ++ pre` in
the queue. -/
theorem listRotations_front :
    ∀ (pre : List Ptr) (x : Ptr) (ys xs : List Ptr) (running : Ptr),
      xs ++ [running] = pre ++ x :: ys →
        listRotations (pre.length + 1) xs running = (ys ++ pre, x, pre ++ [x])
  | [], x, ys, xs, running, h => by
    simp only [List.nil_append] at h
    simp [listRotations, h]
  | p :: pre, x, ys, xs, running, h => by
    have ih := listRotations_front pre x (ys ++ [p]) (pre ++ x :: ys) p (by simp)
    simp only [List.cons_append] at h
    rw [List.length_cons, listRotations_succ, h]
    simp only [List.tail_cons, List.headD_cons, ih]
    simp

/-- A full cycle: with `xs` queued and one thread running, `xs.length + 1`
steps dispatch `xs` and then the running thread, and end where they began. -/
theorem listRotations_cycle (xs : List Ptr) (running : Ptr) :
    listRotations (xs.length + 1) xs running = (xs, running, xs ++ [running]) := by
  simpa using listRotations_front xs running [] xs running rfl

/-- One step dispatches the head of the queue followed by the running thread,
and leaves the rest of it in the queue, the thread that ran at the tail. -/
theorem rq_rotate_spec {alloc : Allocator ThreadControlBlock} (hs : alloc.Sound)
    {fuel : Nat} {m : Heap ThreadControlBlock} {q : ReadyQueue} {ns : List (Ptr × Ptr)}
    (running : Ptr) (h : Chain m q.head ns) (hf : ns.length ≤ fuel) :
    ∃ m' q', ReadyQueue.rotate alloc fuel m q running
          = some (m', q', (handles ns ++ [running]).headD nullptr) ∧
      Chain m' q'.head (ns ++ [(alloc m, running)]).tail := by
  obtain ⟨m1, q1, he, hc1, _⟩ := rq_enqueue_spec hs running h hf
  cases ns with
  | nil =>
    obtain ⟨nx, hd, hc2⟩ := rq_dequeue_spec
        (show Chain m1 q1.head ((alloc m, running) :: []) by simpa using hc1)
    exact ⟨m1.erase (alloc m), ⟨nx⟩, by simp [ReadyQueue.rotate, he, hd, handles],
      by simpa using hc2⟩
  | cons n ns =>
    obtain ⟨nx, hd, hc2⟩ :=
      rq_dequeue_spec
          (show Chain m1 q1.head (n :: (ns ++ [(alloc m, running)])) by simpa using hc1)
    exact ⟨m1.erase n.1, ⟨nx⟩, by simp [ReadyQueue.rotate, he, hd, handles],
      by simpa using hc2⟩

/-! ### Calls with any fuel -/

/-- More fuel does not change what the loop of `ReadyQueue::enqueue` ends at. -/
theorem rq_lastNode_mono {m : Heap ThreadControlBlock} :
    ∀ (fuel fuel' : Nat) (p l : Ptr), ReadyQueue.lastNode m fuel p = some l → fuel ≤ fuel' →
      ReadyQueue.lastNode m fuel' p = some l
  | 0, _, _, _, h, _ => by simp [ReadyQueue.lastNode] at h
  | fuel + 1, 0, _, _, _, hle => by omega
  | fuel + 1, fuel' + 1, p, l, h, hle => by
    simp only [ReadyQueue.lastNode] at h ⊢
    cases hc : m.lookup p with
    | none => simp [hc] at h
    | some c =>
      simp only [hc] at h ⊢
      by_cases hnx : c.next ≠ nullptr
      · rw [if_pos hnx] at h ⊢
        exact rq_lastNode_mono fuel fuel' c.next l h (by omega)
      · rw [if_neg hnx] at h ⊢
        exact h

/-- Whatever the fuel, a call of `ReadyQueue::enqueue` that returns has
appended a node. -/
theorem rq_enqueue_sound {alloc : Allocator ThreadControlBlock} (hs : alloc.Sound)
    {m m' : Heap ThreadControlBlock} {q q' : ReadyQueue} {ns : List (Ptr × Ptr)} {t : Ptr}
    {fuel : Nat} (h : Chain m q.head ns)
    (he : ReadyQueue.enqueue alloc fuel m q t = some (m', q')) :
    Chain m' q'.head (ns ++ [(alloc m, t)]) := by
  obtain ⟨m1, q1, h1, hc1, _⟩ :=
    rq_enqueue_spec hs t h (le_max_right fuel ns.length)
  have hmono : ReadyQueue.enqueue alloc (max fuel ns.length) m q t = some (m', q') := by
    unfold ReadyQueue.enqueue at he ⊢
    by_cases hq : q.head = nullptr
    · simpa [hq] using he
    · simp only [hq, if_false] at he ⊢
      cases hl : ReadyQueue.lastNode m fuel q.head with
      | none => simp [hl] at he
      | some cur =>
        rw [rq_lastNode_mono fuel _ q.head cur hl (le_max_left _ _)]
        simpa [hl] using he
  rw [hmono] at h1
  cases h1
  exact hc1

/-- More fuel does not change what the loop of `Queue::enqueue` ends at. -/
theorem bq_lastNode_mono {m : Heap Queue.Node} :
    ∀ (fuel fuel' : Nat) (p l : Ptr), Queue.lastNode m fuel p = some l → fuel ≤ fuel' →
      Queue.lastNode m fuel' p = some l
  | 0, _, _, _, h, _ => by simp [Queue.lastNode] at h
  | fuel + 1, 0, _, _, _, hle => by omega
  | fuel + 1, fuel' + 1, p, l, h, hle => by
    simp only [Queue.lastNode] at h ⊢
    cases hc : m.lookup p with
    | none => simp [hc] at h
    | some c =>
      simp only [hc] at h ⊢
      by_cases hnx : c.next ≠ nullptr
      · rw [if_pos hnx] at h ⊢
        exact bq_lastNode_mono fuel fuel' c.next l h (by omega)
      · rw [if_neg hnx] at h ⊢
        exact h

/-- Whatever the fuel, a call of `Queue::enqueue` that returns has
appended a node. -/
theorem bq_enqueue_sound {alloc : Allocator Queue.Node} (hs : alloc.Sound)
    {m m' : Heap Queue.Node} {q q' : Queue} {ns : List (Ptr × Ptr)} {t : Ptr}
    {fuel : Nat} (h : QChain m q.head ns)
    (he : Queue.enqueue alloc fuel m q t = some (m', q')) :
    QChain m' q'.head (ns ++ [(alloc m, t)]) := by
  obtain ⟨m1, q1, h1, hc1, _⟩ :=
    bq_enqueue_spec hs t h (le_max_right fuel ns.length)
  have hmono : Queue.enqueue alloc (max fuel ns.length) m q t = some (m', q') := by
    unfold Queue.enqueue at he ⊢
    by_cases hq : q.head = nullptr
    · simpa [hq] using he
    · simp only [hq, if_false] at he ⊢
      cases hl : Queue.lastNode m fuel q.head with
      | none => simp [hl] at he
      | some cur =>
        rw [bq_lastNode_mono fuel _ q.head cur hl (le_max_left _ _)]
        simpa [hl] using he
  rw [hmono] at h1
  cases h1
  exact hc1

/-! ### Counting -/

theorem enqueued_length_le : ∀ (ops : List Op), (enqueued ops).length ≤ ops.length
  | [] => by simp [enqueued]
  | Op.enqueue t :: ops => by simpa [enqueued] using enqueued_length_le ops
  | Op.dequeue :: ops => by
    have := enqueued_length_le ops
    simp only [enqueued, List.length_cons]
    omega

/-- Nodes left and nodes taken out add up to the nodes put in. -/
theorem listRun_count (ops : List Op) (xs : List Ptr) :
    (listRun ops xs).1.length + removals (listRun ops xs).2
      = xs.length + (enqueued ops).length := by
  have := congrArg List.length (listRun_fifo ops xs)
  simp only [List.length_append, List.length_map] at this
  simp only [removals]
  omega

/-- Two heaps with the same cell at every address have the same number of
cells. -/
theorem heap_size_eq {C : Type} {m m' : Heap C} (h : ∀ a, m'.lookup a = m.lookup a) :
    m'.entries.length = m.entries.length := by
  refine List.Perm.length_eq (List.lookup_ext m'.nodupKeys m.nodupKeys ?_)
  intro a c
  have := h a
  simp only [AList.lookup] at this
  rw [this]

/-- After any run on a fresh `ReadyQueue` the destructor returns, hands each
node still in the queue to `delete` once, and leaves the heap as it was before
the queue was constructed. -/
theorem rq_destroy_after_run {alloc : Allocator ThreadControlBlock} (hs : alloc.Sound)
    (m0 : Heap ThreadControlBlock) {fuel : Nat} (ops : List Op) (hf : ops.length ≤ fuel) :
    ∃ m q ns m', ReadyQueue.run alloc fuel ops m0 ReadyQueue.new
          = some (m, q, (listRun ops []).2) ∧
      Chain m q.head ns ∧
      ReadyQueue.destroy fuel m q = some (m', ReadyQueue.new, addrs ns) ∧
      (addrs ns).Nodup ∧ (∀ a ∈ addrs ns, m.lookup a ≠ none ∧ m'.lookup a = none) ∧
      (enqueued ops).length = removals (listRun ops []).2 + (addrs ns).length ∧
      (∀ a, m'.lookup a = m0.lookup a) ∧ m'.entries.length = m0.entries.length := by
  obtain ⟨m, q, ns, hr, hc, ho, hh⟩ := rq_run_fresh hs m0 ops hf
  have hcount := listRun_count ops []
  rw [← hh] at hcount
  simp only [handles, List.length_map, List.length_nil, Nat.zero_add] at hcount
  have hlen : ns.length ≤ fuel := by
    have := enqueued_length_le ops
    omega
  obtain ⟨m', hd, hlk⟩ := rq_destroy_spec fuel ns m q hc hlen
  have hsame : ∀ a, m'.lookup a = m0.lookup a := by
    intro a
    rw [hlk a]
    by_cases ha : a ∈ addrs ns
    · simp [ha, ho.1 a ha]
    · simp [ha, ho.2 a ha]
  refine ⟨m, q, ns, m', hr, hc, hd, chain_nodup _ _ hc, ?_, ?_, hsame, heap_size_eq hsame⟩
  · intro a ha
    exact ⟨chain_live hc ha, by rw [hlk a]; simp [ha]⟩
  · simp only [addrs, List.length_map]
    omega

/-- After any run on a fresh `Queue` the destructor returns, hands each
node still in the queue to `delete` once, and leaves the heap as it was before
the queue was constructed. -/
theorem bq_destroy_after_run {alloc : Allocator Queue.Node} (hs : alloc.Sound)
    (m0 : Heap Queue.Node) {fuel : Nat} (ops : List Op) (hf : ops.length ≤ fuel) :
    ∃ m q ns m', Queue.run alloc fuel ops m0 Queue.new
          = some (m, q, (listRun ops []).2) ∧
      QChain m q.head ns ∧
      Queue.destroy fuel m q = some (m', Queue.new, addrs ns) ∧
      (addrs ns).Nodup ∧ (∀ a ∈ addrs ns, m.lookup a ≠ none ∧ m'.lookup a = none) ∧
      (enqueued ops).length = removals (listRun ops []).2 + (addrs ns).length ∧
      (∀ a, m'.lookup a = m0.lookup a) ∧ m'.entries.length = m0.entries.length := by
  obtain ⟨m, q, ns, hr, hc, ho, hh⟩ := bq_run_fresh hs m0 ops hf
  have hcount := listRun_count ops []
  rw [← hh] at hcount
  simp only [handles, List.length_map, List.length_nil, Nat.zero_add] at hcount
  have hlen : ns.length ≤ fuel := by
    have := enqueued_length_le ops
    omega
  obtain ⟨m', hd, hlk⟩ := bq_destroy_spec fuel ns m q hc hlen
  have hsame : ∀ a, m'.lookup a = m0.lookup a := by
    intro a
    rw [hlk a]
    by_cases ha : a ∈ addrs ns
    · simp [ha, ho.1 a ha]
    · simp [ha, ho.2 a ha]
  refine ⟨m, q, ns, m', hr, hc, hd, qchain_nodup _ _ hc, ?_, ?_, hsame, heap_size_eq hsame⟩
  · intro a ha
    exact ⟨qchain_live hc ha, by rw [hlk a]; simp [ha]⟩
  · simp only [addrs, List.length_map]
    omega

/-- `ReadyQueue::dequeue` on any queue: it returns, and takes one node away
when there is one. -/
theorem rq_dequeue_count {m : Heap ThreadControlBlock} {q : ReadyQueue}
    {ns : List (Ptr × Ptr)} (h : Chain m q.head ns) :
    ∃ m' q' r ns', ReadyQueue.dequeue m q = some (m', q', r) ∧ Chain m' q'.head ns' ∧
      (ns ≠ [] → ns'.length + 1 = ns.length) ∧ (ns = [] → ns'.length = 0) := by
  cases ns with
  | nil =>
    have hq : q.head = nullptr := by simpa [chain_nil] using h
    exact ⟨m, q, nullptr, [], rq_dequeue_null m hq, h, by simp, by simp⟩
  | cons n ns =>
    obtain ⟨nx, hd, hc⟩ := rq_dequeue_spec h
    exact ⟨_, ⟨nx⟩, n.2, ns, hd, hc, by simp, by simp⟩

/-- The number of nodes after a run on a fresh `ReadyQueue`. -/
theorem rq_run_count {alloc : Allocator ThreadControlBlock} (hs : alloc.Sound)
    (m0 : Heap ThreadControlBlock) {fuel : Nat} (ops : List Op) (hf : ops.length ≤ fuel) :
    ∃ m q out ns, ReadyQueue.run alloc fuel ops m0 ReadyQueue.new = some (m, q, out) ∧
      Chain m q.head ns ∧
      (ns.length : Int) = ((enqueued ops).length : Int) - (removals out : Int) ∧
      removals out ≤ (enqueued ops).length := by
  obtain ⟨m, q, ns, hr, hc, _, hh⟩ := rq_run_fresh hs m0 ops hf
  have hcount := listRun_count ops []
  rw [← hh] at hcount
  simp only [handles, List.length_map, List.length_nil, Nat.zero_add] at hcount
  exact ⟨m, q, _, ns, hr, hc, by omega, by omega⟩

/-- `Queue::dequeue` on any queue: it returns, and takes one node away
when there is one. -/
theorem bq_dequeue_count {m : Heap Queue.Node} {q : Queue}
    {ns : List (Ptr × Ptr)} (h : QChain m q.head ns) :
    ∃ m' q' r ns', Queue.dequeue m q = some (m', q', r) ∧ QChain m' q'.head ns' ∧
      (ns ≠ [] → ns'.length + 1 = ns.length) ∧ (ns = [] → ns'.length = 0) := by
  cases ns with
  | nil =>
    have hq : q.head = nullptr := by simpa [qchain_nil] using h
    exact ⟨m, q, nullptr, [], bq_dequeue_null m hq, h, by simp, by simp⟩
  | cons n ns =>
    obtain ⟨nx, hd, hc⟩ := bq_dequeue_spec h
    exact ⟨_, ⟨nx⟩, n.2, ns, hd, hc, by simp, by simp⟩

/-- The number of nodes after a run on a fresh `Queue`. -/
theorem bq_run_count {alloc : Allocator Queue.Node} (hs : alloc.Sound)
    (m0 : Heap Queue.Node) {fuel : Nat} (ops : List Op) (hf : ops.length ≤ fuel) :
    ∃ m q out ns, Queue.run alloc fuel ops m0 Queue.new = some (m, q, out) ∧
      QChain m q.head ns ∧
      (ns.length : Int) = ((enqueued ops).length : Int) - (removals out : Int) ∧
      removals out ≤ (enqueued ops).length := by
  obtain ⟨m, q, ns, hr, hc, _, hh⟩ := bq_run_fresh hs m0 ops hf
  have hcount := listRun_count ops []
  rw [← hh] at hcount
  simp only [handles, List.length_map, List.length_nil, Nat.zero_add] at hcount
  exact ⟨m, q, _, ns, hr, hc, by omega, by omega⟩

/-! ### Queues without duplicates, and the order of two calls (`ReadyQueue`) -/

/-- `ReadyQueue::dequeue` on a queue in which no thread pointer occurs twice:
none occurs twice afterwards, and the value returned is not in the queue any
more. -/
theorem rq_dequeue_nodup {m : Heap ThreadControlBlock} {q : ReadyQueue}
    {ns : List (Ptr × Ptr)} (h : Chain m q.head ns) (hnd : (handles ns).Nodup) :
    ∃ m' q' r ns', ReadyQueue.dequeue m q = some (m', q', r) ∧ Chain m' q'.head ns' ∧
      (handles ns').Nodup ∧ r ∉ handles ns' := by
  cases ns with
  | nil =>
    have hq : q.head = nullptr := by simpa [chain_nil] using h
    exact ⟨m, q, nullptr, [], rq_dequeue_null m hq, h, by simp, by simp⟩
  | cons n ns =>
    obtain ⟨nx, hd, hc⟩ := rq_dequeue_spec h
    simp only [handles, List.map_cons, List.nodup_cons] at hnd
    exact ⟨_, ⟨nx⟩, n.2, ns, hd, hc, hnd.2, hnd.1⟩

/-- `ReadyQueue::enqueue` of a thread pointer that is not in the queue, on a
queue in which no thread pointer occurs twice: none occurs twice afterwards. -/
theorem rq_enqueue_nodup {alloc : Allocator ThreadControlBlock} (hs : alloc.Sound)
    {m : Heap ThreadControlBlock} {q : ReadyQueue} {ns : List (Ptr × Ptr)} (x : Ptr)
    {fuel : Nat} (h : Chain m q.head ns) (hf : ns.length ≤ fuel)
    (hnd : (handles ns).Nodup) (hx : x ∉ handles ns) :
    ∃ m' q' ns', ReadyQueue.enqueue alloc fuel m q x = some (m', q') ∧
      Chain m' q'.head ns' ∧ handles ns' = handles ns ++ [x] ∧ (handles ns').Nodup := by
  obtain ⟨m', q', he, hc, _⟩ := rq_enqueue_spec hs x h hf
  refine ⟨m', q', _, he, hc, by simp [handles], ?_⟩
  simp only [handles, List.map_append, List.map_cons, List.map_nil]
  rw [List.nodup_append]
  refine ⟨hnd, by simp, ?_⟩
  intro a ha hb
  simp only [List.mem_singleton] at hb
  exact hx (hb ▸ ha)

/-- On a `ReadyQueue` with a node, `enqueue` then `dequeue` and `dequeue` then
`enqueue` return the same thread pointer and leave the same thread pointers. -/
theorem rq_commute {alloc : Allocator ThreadControlBlock} (hs : alloc.Sound)
    {m : Heap ThreadControlBlock} {q : ReadyQueue} {n : Ptr × Ptr} {ns : List (Ptr × Ptr)}
    (x : Ptr) {fuel : Nat} (h : Chain m q.head (n :: ns)) (hf : (n :: ns).length ≤ fuel) :
    ∃ m1 q1 m2 q2 m3 q3 m4 q4 ns2 ns4,
      ReadyQueue.enqueue alloc fuel m q x = some (m1, q1) ∧
      ReadyQueue.dequeue m1 q1 = some (m2, q2, n.2) ∧
      ReadyQueue.dequeue m q = some (m3, q3, n.2) ∧
      ReadyQueue.enqueue alloc fuel m3 q3 x = some (m4, q4) ∧
      Chain m2 q2.head ns2 ∧ Chain m4 q4.head ns4 ∧
      handles ns2 = handles ns ++ [x] ∧ handles ns4 = handles ns ++ [x] := by
  obtain ⟨m1, q1, he1, hc1, _⟩ := rq_enqueue_spec hs x h hf
  obtain ⟨nx2, hd2, hc2⟩ := rq_dequeue_spec
    (show Chain m1 q1.head (n :: (ns ++ [(alloc m, x)])) by simpa using hc1)
  obtain ⟨nx3, hd3, hc3⟩ := rq_dequeue_spec h
  obtain ⟨m4, q4, he4, hc4, _⟩ := rq_enqueue_spec hs x
    (show Chain (m.erase n.1) (ReadyQueue.mk nx3).head ns from hc3)
    (show ns.length ≤ fuel by simp at hf; omega)
  exact ⟨m1, q1, _, ⟨nx2⟩, _, ⟨nx3⟩, m4, q4, _, _, he1, hd2, hd3, he4, hc2, hc4,
    by simp [handles], by simp [handles]⟩

/-- On a `ReadyQueue` without nodes the order of the two calls shows:
`enqueue` then `dequeue` returns the thread pointer and leaves no node, and
`dequeue` then `enqueue` returns the null pointer and leaves one node. -/
theorem rq_empty_order {alloc : Allocator ThreadControlBlock} (hs : alloc.Sound)
    (m : Heap ThreadControlBlock) (x : Ptr) (fuel : Nat) :
    ∃ m1 q1 m2 q2 m4 q4 a,
      ReadyQueue.enqueue alloc fuel m ReadyQueue.new x = some (m1, q1) ∧
      ReadyQueue.dequeue m1 q1 = some (m2, q2, x) ∧
      Chain m2 q2.head [] ∧
      ReadyQueue.dequeue m ReadyQueue.new = some (m, ReadyQueue.new, nullptr) ∧
      ReadyQueue.enqueue alloc fuel m ReadyQueue.new x = some (m4, q4) ∧
      Chain m4 q4.head [(a, x)] ∧ q2.head = nullptr ∧ q4.head ≠ nullptr := by
  have h0 : Chain m ReadyQueue.new.head [] := by simp [chain_nil, ReadyQueue.new]
  obtain ⟨m1, q1, he1, hc1, _⟩ := rq_enqueue_spec hs x h0 (Nat.zero_le fuel)
  simp only [List.nil_append] at hc1
  obtain ⟨nx2, hd2, hc2⟩ := rq_dequeue_spec hc1
  have hnx : nx2 = nullptr := by simpa [chain_nil] using hc2
  have hq1 : q1.head ≠ nullptr := by
    rw [chain_cons] at hc1
    exact hc1.2.1
  exact ⟨m1, q1, _, ⟨nx2⟩, m1, q1, _, he1, hd2, hc2, rq_dequeue_null m rfl, he1, hc1,
    hnx, hq1⟩

/-! ### Queues without duplicates, and the order of two calls (`Queue`) -/

/-- `Queue::dequeue` on a queue in which no thread pointer occurs twice:
none occurs twice afterwards, and the value returned is not in the queue any
more. -/
theorem bq_dequeue_nodup {m : Heap Queue.Node} {q : Queue}
    {ns : List (Ptr × Ptr)} (h : QChain m q.head ns) (hnd : (handles ns).Nodup) :
    ∃ m' q' r ns', Queue.dequeue m q = some (m', q', r) ∧ QChain m' q'.head ns' ∧
      (handles ns').Nodup ∧ r ∉ handles ns' := by
  cases ns with
  | nil =>
    have hq : q.head = nullptr := by simpa [qchain_nil] using h
    exact ⟨m, q, nullptr, [], bq_dequeue_null m hq, h, by simp, by simp⟩
  | cons n ns =>
    obtain ⟨nx, hd, hc⟩ := bq_dequeue_spec h
    simp only [handles, List.map_cons, List.nodup_cons] at hnd
    exact ⟨_, ⟨nx⟩, n.2, ns, hd, hc, hnd.2, hnd.1⟩

/-- `Queue::enqueue` of a thread pointer that is not in the queue, on a
queue in which no thread pointer occurs twice: none occurs twice afterwards. -/
theorem bq_enqueue_nodup {alloc : Allocator Queue.Node} (hs : alloc.Sound)
    {m : Heap Queue.Node} {q : Queue} {ns : List (Ptr × Ptr)} (x : Ptr)
    {fuel : Nat} (h : QChain m q.head ns) (hf : ns.length ≤ fuel)
    (hnd : (handles ns).Nodup) (hx : x ∉ handles ns) :
    ∃ m' q' ns', Queue.enqueue alloc fuel m q x = some (m', q') ∧
      QChain m' q'.head ns' ∧ handles ns' = handles ns ++ [x] ∧ (handles ns').Nodup := by
  obtain ⟨m', q', he, hc, _⟩ := bq_enqueue_spec hs x h hf
  refine ⟨m', q', _, he, hc, by simp [handles], ?_⟩
  simp only [handles, List.map_append, List.map_cons, List.map_nil]
  rw [List.nodup_append]
  refine ⟨hnd, by simp, ?_⟩
  intro a ha hb
  simp only [List.mem_singleton] at hb
  exact hx (hb ▸ ha)

/-- On a `Queue` with a node, `enqueue` then `dequeue` and `dequeue` then
`enqueue` return the same thread pointer and leave the same thread pointers. -/
theorem bq_commute {alloc : Allocator Queue.Node} (hs : alloc.Sound)
    {m : Heap Queue.Node} {q : Queue} {n : Ptr × Ptr} {ns : List (Ptr × Ptr)}
    (x : Ptr) {fuel : Nat} (h : QChain m q.head (n :: ns)) (hf : (n :: ns).length ≤ fuel) :
    ∃ m1 q1 m2 q2 m3 q3 m4 q4 ns2 ns4,
      Queue.enqueue alloc fuel m q x = some (m1, q1) ∧
      Queue.dequeue m1 q1 = some (m2, q2, n.2) ∧
      Queue.dequeue m q = some (m3, q3, n.2) ∧
      Queue.enqueue alloc fuel m3 q3 x = some (m4, q4) ∧
      QChain m2 q2.head ns2 ∧ QChain m4 q4.head ns4 ∧
      handles ns2 = handles ns ++ [x] ∧ handles ns4 = handles ns ++ [x] := by
  obtain ⟨m1, q1, he1, hc1, _⟩ := bq_enqueue_spec hs x h hf
  obtain ⟨nx2, hd2, hc2⟩ := bq_dequeue_spec
    (show QChain m1 q1.head (n :: (ns ++ [(alloc m, x)])) by simpa using hc1)
  obtain ⟨nx3, hd3, hc3⟩ := bq_dequeue_spec h
  obtain ⟨m4, q4, he4, hc4, _⟩ := bq_enqueue_spec hs x
    (show QChain (m.erase n.1) (Queue.mk nx3).head ns from hc3)
    (show ns.length ≤ fuel by simp at hf; omega)
  exact ⟨m1, q1, _, ⟨nx2⟩, _, ⟨nx3⟩, m4, q4, _, _, he1, hd2, hd3, he4, hc2, hc4,
    by simp [handles], by simp [handles]⟩

/-- On a `Queue` without nodes the order of the two calls shows:
`enqueue` then `dequeue` returns the thread pointer and leaves no node, and
`dequeue` then `enqueue` returns the null pointer and leaves one node. -/
theorem bq_empty_order {alloc : Allocator Queue.Node} (hs : alloc.Sound)
    (m : Heap Queue.Node) (x : Ptr) (fuel : Nat) :
    ∃ m1 q1 m2 q2 m4 q4 a,
      Queue.enqueue alloc fuel m Queue.new x = some (m1, q1) ∧
      Queue.dequeue m1 q1 = some (m2, q2, x) ∧
      QChain m2 q2.head [] ∧
      Queue.dequeue m Queue.new = some (m, Queue.new, nullptr) ∧
      Queue.enqueue alloc fuel m Queue.new x = some (m4, q4) ∧
      QChain m4 q4.head [(a, x)] ∧ q2.head = nullptr ∧ q4.head ≠ nullptr := by
  have h0 : QChain m Queue.new.head [] := by simp [qchain_nil, Queue.new]
  obtain ⟨m1, q1, he1, hc1, _⟩ := bq_enqueue_spec hs x h0 (Nat.zero_le fuel)
  simp only [List.nil_append] at hc1
  obtain ⟨nx2, hd2, hc2⟩ := bq_dequeue_spec hc1
  have hnx : nx2 = nullptr := by simpa [qchain_nil] using hc2
  have hq1 : q1.head ≠ nullptr := by
    rw [qchain_cons] at hc1
    exact hc1.2.1
  exact ⟨m1, q1, _, ⟨nx2⟩, m1, q1, _, he1, hd2, hc2, bq_dequeue_null m rfl, he1, hc1,
    hnx, hq1⟩

/-! ### The concrete allocator -/

theorem le_foldr_max : ∀ (l : List Nat) (a : Nat), a ∈ l → a ≤ l.foldr max 0
  | [], _, h => by simp at h
  | b :: l, a, h => by
    simp only [List.mem_cons] at h
    simp only [List.foldr_cons]
    rcases h with h | h
    · exact h ▸ le_max_left _ _
    · exact le_trans (le_foldr_max l a h) (le_max_right _ _)

theorem bumpAlloc_sound {C : Type} : (bumpAlloc : Allocator C).Sound := by
  intro m
  refine ⟨Nat.succ_ne_zero _, ?_⟩
  rw [AList.lookup_eq_none, AList.mem_keys]
  intro hmem
  have := le_foldr_max _ _ hmem
  simp only [bumpAlloc] at this
  omega

/-! ## The claims -/

/-- C1. For a queue holding the nodes `ns` and every thread pointer `x`, whether
or not `x` is already held by a node, `enqueue(x)` returns and leaves the queue
holding the nodes `ns` followed by one new node that holds `x`: the nodes that
were there keep their places and `x` is last.  This holds for
`ReadyQueue::enqueue` and for `Queue<T>::enqueue`, given an allocator that
returns a non-null address that is not live, and fuel for the loop. -/
theorem enqueue_appends_at_tail
    (allocT : Allocator ThreadControlBlock) (allocN : Allocator Queue.Node)
    (hT : allocT.Sound) (hN : allocN.Sound) (fuel : Nat) (x : Ptr)
    (mT : Heap ThreadControlBlock) (qT : ReadyQueue) (nsT : List (Ptr × Ptr))
    (hcT : Chain mT qT.head nsT) (hfT : nsT.length ≤ fuel)
    (mN : Heap Queue.Node) (qN : Queue) (nsN : List (Ptr × Ptr))
    (hcN : QChain mN qN.head nsN) (hfN : nsN.length ≤ fuel) :
    (∃ m' q' a, ReadyQueue.enqueue allocT fuel mT qT x = some (m', q') ∧
        Chain m' q'.head (nsT ++ [(a, x)]) ∧
        handles (nsT ++ [(a, x)]) = handles nsT ++ [x]) ∧
    (∃ m' q' a, Queue.enqueue allocN fuel mN qN x = some (m', q') ∧
        QChain m' q'.head (nsN ++ [(a, x)]) ∧
        handles (nsN ++ [(a, x)]) = handles nsN ++ [x]) := by
  obtain ⟨m1, q1, h1, hc1, _⟩ := rq_enqueue_spec hT x hcT hfT
  obtain ⟨m2, q2, h2, hc2, _⟩ := bq_enqueue_spec hN x hcN hfN
  exact ⟨⟨m1, q1, _, h1, hc1, by simp [handles]⟩, ⟨m2, q2, _, h2, hc2, by simp [handles]⟩⟩

/-- Witness of C1: both queues hold the thread pointers 7, 8 and 7 is enqueued
once more. -/
theorem enqueue_appends_at_tail_witness :
    (bumpAlloc : Allocator ThreadControlBlock).Sound ∧
    (bumpAlloc : Allocator Queue.Node).Sound ∧
    Chain (((∅ : Heap ThreadControlBlock).insert 2 ⟨8, 0⟩).insert 1 ⟨7, 2⟩)
      (ReadyQueue.mk 1).head [(1, 7), (2, 8)] ∧
    [(1, 7), (2, 8)].length ≤ 2 ∧
    QChain (((∅ : Heap Queue.Node).insert 5 ⟨8, 0⟩).insert 3 ⟨7, 5⟩)
      (Queue.mk 3).head [(3, 7), (5, 8)] ∧
    [(3, 7), (5, 8)].length ≤ 2 ∧
    ((∃ m' q' a, ReadyQueue.enqueue bumpAlloc 2
          (((∅ : Heap ThreadControlBlock).insert 2 ⟨8, 0⟩).insert 1 ⟨7, 2⟩) ⟨1⟩ 7 = some (m', q') ∧
        Chain m' q'.head ([(1, 7), (2, 8)] ++ [(a, 7)]) ∧
        handles ([(1, 7), (2, 8)] ++ [(a, 7)]) = handles [(1, 7), (2, 8)] ++ [7]) ∧
     (∃ m' q' a, Queue.enqueue bumpAlloc 2
          (((∅ : Heap Queue.Node).insert 5 ⟨8, 0⟩).insert 3 ⟨7, 5⟩) ⟨3⟩ 7 = some (m', q') ∧
        QChain m' q'.head ([(3, 7), (5, 8)] ++ [(a, 7)]) ∧
        handles ([(3, 7), (5, 8)] ++ [(a, 7)]) = handles [(3, 7), (5, 8)] ++ [7])) :=
  ⟨bumpAlloc_sound, bumpAlloc_sound, by decide, by decide, by decide, by decide,
    enqueue_appends_at_tail bumpAlloc bumpAlloc bumpAlloc_sound bumpAlloc_sound 2 7
      _ ⟨1⟩ [(1, 7), (2, 8)] (by decide) (by decide)
      _ ⟨3⟩ [(3, 7), (5, 8)] (by decide) (by decide)⟩

/-- C2. For a queue holding the node `n` followed by the nodes `ns`, `dequeue()`
returns the thread pointer held by `n` and leaves the queue holding `ns`, in
the same order.  This holds for `ReadyQueue::dequeue` and for
`Queue<T>::dequeue`. -/
theorem dequeue_removes_head
    (mT : Heap ThreadControlBlock) (qT : ReadyQueue) (nT : Ptr × Ptr) (nsT : List (Ptr × Ptr))
    (hcT : Chain mT qT.head (nT :: nsT))
    (mN : Heap Queue.Node) (qN : Queue) (nN : Ptr × Ptr) (nsN : List (Ptr × Ptr))
    (hcN : QChain mN qN.head (nN :: nsN)) :
    (∃ m' q', ReadyQueue.dequeue mT qT = some (m', q', nT.2) ∧ Chain m' q'.head nsT) ∧
    (∃ m' q', Queue.dequeue mN qN = some (m', q', nN.2) ∧ QChain m' q'.head nsN) := by
  obtain ⟨nx1, h1, hc1⟩ := rq_dequeue_spec hcT
  obtain ⟨nx2, h2, hc2⟩ := bq_dequeue_spec hcN
  exact ⟨⟨_, ⟨nx1⟩, h1, hc1⟩, ⟨_, ⟨nx2⟩, h2, hc2⟩⟩

/-- Witness of C2: both queues hold the thread pointers 7, 8. -/
theorem dequeue_removes_head_witness :
    Chain (((∅ : Heap ThreadControlBlock).insert 2 ⟨8, 0⟩).insert 1 ⟨7, 2⟩)
      (ReadyQueue.mk 1).head ((1, 7) :: [(2, 8)]) ∧
    QChain (((∅ : Heap Queue.Node).insert 5 ⟨8, 0⟩).insert 3 ⟨7, 5⟩)
      (Queue.mk 3).head ((3, 7) :: [(5, 8)]) ∧
    ((∃ m' q', ReadyQueue.dequeue
          (((∅ : Heap ThreadControlBlock).insert 2 ⟨8, 0⟩).insert 1 ⟨7, 2⟩) ⟨1⟩
            = some (m', q', ((1, 7) : Ptr × Ptr).2) ∧ Chain m' q'.head [(2, 8)]) ∧
     (∃ m' q', Queue.dequeue
          (((∅ : Heap Queue.Node).insert 5 ⟨8, 0⟩).insert 3 ⟨7, 5⟩) ⟨3⟩
            = some (m', q', ((3, 7) : Ptr × Ptr).2) ∧ QChain m' q'.head [(5, 8)])) :=
  ⟨by decide, by decide,
    dequeue_removes_head _ ⟨1⟩ (1, 7) [(2, 8)] (by decide) _ ⟨3⟩ (3, 7) [(5, 8)] (by decide)⟩

/-- C4. On the empty queue `dequeue()` returns the null pointer, gives a result
(it does not fail), and leaves the queue empty and the heap as it was; called
any number of times in a row on the empty queue it does so every time.  This
holds for `ReadyQueue::dequeue` and for `Queue<T>::dequeue`. -/
theorem dequeue_on_empty
    (allocT : Allocator ThreadControlBlock) (allocN : Allocator Queue.Node) (fuel k : Nat)
    (mT : Heap ThreadControlBlock) (mN : Heap Queue.Node) :
    ReadyQueue.dequeue mT ReadyQueue.new = some (mT, ReadyQueue.new, nullptr) ∧
    ReadyQueue.run allocT fuel (List.replicate k Op.dequeue) mT ReadyQueue.new
      = some (mT, ReadyQueue.new, List.replicate k ⟨true, nullptr⟩) ∧
    Chain mT ReadyQueue.new.head [] ∧
    Queue.dequeue mN Queue.new = some (mN, Queue.new, nullptr) ∧
    Queue.run allocN fuel (List.replicate k Op.dequeue) mN Queue.new
      = some (mN, Queue.new, List.replicate k ⟨true, nullptr⟩) ∧
    QChain mN Queue.new.head [] := by
  have hT : ReadyQueue.dequeue mT ReadyQueue.new = some (mT, ReadyQueue.new, nullptr) :=
    rq_dequeue_null mT rfl
  have hN : Queue.dequeue mN Queue.new = some (mN, Queue.new, nullptr) :=
    bq_dequeue_null mN rfl
  refine ⟨hT, ?_, by simp [chain_nil, ReadyQueue.new], hN, ?_, by simp [qchain_nil, Queue.new]⟩
  · induction k with
    | zero => rfl
    | succ k ih =>
      simp only [List.replicate_succ, ReadyQueue.run, hT, ih]
      simp [ReadyQueue.new]
  · induction k with
    | zero => rfl
    | succ k ih =>
      simp only [List.replicate_succ, Queue.run, hN, ih]
      simp [Queue.new]

/-- C3. First in, first out.  For every finite sequence of calls of `enqueue`
and `dequeue` on a freshly constructed `ReadyQueue`, with only non-null thread
pointers enqueued, the run returns, the thread pointers returned by `dequeue`
followed by those still in the queue are the thread pointers enqueued, in
order, and so the k-th call of `dequeue` that returns a thread pointer returns
the k-th thread pointer enqueued: none is skipped and none is returned twice.
And for any `A`, `B`, `C`: `enqueue(A)`, `enqueue(B)`, `enqueue(C)` on a fresh
`ReadyQueue` and then three calls of `dequeue` return `A`, `B`, `C`, in that
order, each from a queue with nodes, and leave the queue without nodes. -/
theorem fifo_order
    (alloc : Allocator ThreadControlBlock) (hs : alloc.Sound) (fuel : Nat) (ops : List Op)
    (m0 : Heap ThreadControlBlock) (A B C : Ptr)
    (hnn : ∀ t ∈ enqueued ops, t ≠ nullptr) (hf : ops.length ≤ fuel) :
    (∃ m q out ns, ReadyQueue.run alloc fuel ops m0 ReadyQueue.new = some (m, q, out) ∧
      Chain m q.head ns ∧
      returned out ++ handles ns = enqueued ops ∧
      ∀ (k : Nat) (h : Ptr), (returned out)[k]? = some h → (enqueued ops)[k]? = some h) ∧
    (∃ m q, ReadyQueue.run alloc (fuel + 6)
          [Op.enqueue A, Op.enqueue B, Op.enqueue C, Op.dequeue, Op.dequeue, Op.dequeue]
          m0 ReadyQueue.new
        = some (m, q, [⟨false, A⟩, ⟨false, B⟩, ⟨false, C⟩]) ∧
      Chain m q.head []) := by
  constructor
  · obtain ⟨m, q, ns, hr, hc, _, hh⟩ := rq_run_fresh hs m0 ops hf
    have hfifo := listRun_fifo ops []
    rw [← returned_eq_removed _ (listRun_null_iff ops hnn), List.nil_append] at hfifo
    have hcat : returned (listRun ops []).2 ++ handles ns = enqueued ops := by
      rw [hh]
      exact hfifo
    refine ⟨m, q, _, ns, hr, hc, hcat, ?_⟩
    intro k h hk
    have hlt : k < (returned (listRun ops []).2).length := by
      by_contra hge
      rw [List.getElem?_eq_none (Nat.le_of_not_lt hge)] at hk
      cases hk
    rw [← hcat, List.getElem?_append_left hlt]
    exact hk
  · obtain ⟨m, q, ns, hr, hc, _, hh⟩ := rq_run_fresh hs m0
      [Op.enqueue A, Op.enqueue B, Op.enqueue C, Op.dequeue, Op.dequeue, Op.dequeue]
      (show 6 ≤ fuel + 6 by omega)
    have hns : ns = [] := by simpa [listRun, handles] using hh
    subst hns
    exact ⟨m, q, by simpa [listRun] using hr, hc⟩

/-- Witness of C3: the thread pointers 11, 22, 33 are enqueued on a fresh
`ReadyQueue` and three calls of `dequeue` return 11, 22, 33, in that order. -/
theorem fifo_order_witness :
    (bumpAlloc : Allocator ThreadControlBlock).Sound ∧
    (∀ t ∈ enqueued [Op.enqueue 11, Op.enqueue 22, Op.enqueue 33,
        Op.dequeue, Op.dequeue, Op.dequeue], t ≠ nullptr) ∧
    [Op.enqueue 11, Op.enqueue 22, Op.enqueue 33, Op.dequeue, Op.dequeue, Op.dequeue].length ≤ 6 ∧
    ReadyQueue.run bumpAlloc 6
        [Op.enqueue 11, Op.enqueue 22, Op.enqueue 33, Op.dequeue, Op.dequeue, Op.dequeue]
        ∅ ReadyQueue.new
      = some (∅, ReadyQueue.new, [⟨false, 11⟩, ⟨false, 22⟩, ⟨false, 33⟩]) ∧
    ((∃ m q out ns, ReadyQueue.run bumpAlloc 6
        [Op.enqueue 11, Op.enqueue 22, Op.enqueue 33, Op.dequeue, Op.dequeue, Op.dequeue]
        ∅ ReadyQueue.new = some (m, q, out) ∧
      Chain m q.head ns ∧
      returned out ++ handles ns = enqueued [Op.enqueue 11, Op.enqueue 22, Op.enqueue 33,
        Op.dequeue, Op.dequeue, Op.dequeue] ∧
      ∀ (k : Nat) (h : Ptr), (returned out)[k]? = some h →
        (enqueued [Op.enqueue 11, Op.enqueue 22, Op.enqueue 33,
          Op.dequeue, Op.dequeue, Op.dequeue])[k]? = some h) ∧
     (∃ m q, ReadyQueue.run bumpAlloc (6 + 6)
          [Op.enqueue 11, Op.enqueue 22, Op.enqueue 33, Op.dequeue, Op.dequeue, Op.dequeue]
          ∅ ReadyQueue.new
        = some (m, q, [⟨false, 11⟩, ⟨false, 22⟩, ⟨false, 33⟩]) ∧
      Chain m q.head [])) :=
  ⟨bumpAlloc_sound, by decide, by decide, rfl,
    fifo_order bumpAlloc bumpAlloc_sound 6 _ ∅ 11 22 33 (by decide) (by decide)⟩

/-- C5, as the code has it.  For every queue reached from a freshly constructed
one by calls of `dequeue` and calls of `enqueue` with non-null thread pointers,
`dequeue()` returns the null pointer if and only if the queue held no node
before the call.  This holds for `ReadyQueue` and for `Queue<T>`. -/
theorem null_iff_no_nodes
    (allocT : Allocator ThreadControlBlock) (allocN : Allocator Queue.Node)
    (hT : allocT.Sound) (hN : allocN.Sound) (fuel : Nat) (ops : List Op)
    (mT : Heap ThreadControlBlock) (mN : Heap Queue.Node)
    (hnn : ∀ t ∈ enqueued ops, t ≠ nullptr) (hf : ops.length ≤ fuel) :
    (∃ m q out ns m' q' r, ReadyQueue.run allocT fuel ops mT ReadyQueue.new = some (m, q, out) ∧
        Chain m q.head ns ∧ ReadyQueue.dequeue m q = some (m', q', r) ∧
        (r = nullptr ↔ ns = [])) ∧
    (∃ m q out ns m' q' r, Queue.run allocN fuel ops mN Queue.new = some (m, q, out) ∧
        QChain m q.head ns ∧ Queue.dequeue m q = some (m', q', r) ∧
        (r = nullptr ↔ ns = [])) := by
  constructor
  · obtain ⟨m, q, ns, hr, hc, _, hh⟩ := rq_run_fresh hT mT ops hf
    cases ns with
    | nil =>
      have hq : q.head = nullptr := by simpa [chain_nil] using hc
      exact ⟨m, q, _, [], m, q, nullptr, hr, hc, rq_dequeue_null m hq, by simp⟩
    | cons n ns =>
      obtain ⟨nx, hd, _⟩ := rq_dequeue_spec hc
      have hn : n.2 ≠ nullptr :=
        hnn _ (listRun_left_subset ops _ (by rw [← hh]; simp [handles]))
      exact ⟨m, q, _, n :: ns, _, ⟨nx⟩, n.2, hr, hc, hd, by simp [hn]⟩
  · obtain ⟨m, q, ns, hr, hc, _, hh⟩ := bq_run_fresh hN mN ops hf
    cases ns with
    | nil =>
      have hq : q.head = nullptr := by simpa [qchain_nil] using hc
      exact ⟨m, q, _, [], m, q, nullptr, hr, hc, bq_dequeue_null m hq, by simp⟩
    | cons n ns =>
      obtain ⟨nx, hd, _⟩ := bq_dequeue_spec hc
      have hn : n.2 ≠ nullptr :=
        hnn _ (listRun_left_subset ops _ (by rw [← hh]; simp [handles]))
      exact ⟨m, q, _, n :: ns, _, ⟨nx⟩, n.2, hr, hc, hd, by simp [hn]⟩

/-- Witness of the amended C5: the thread pointers 11 and 22 are enqueued and
one is dequeued; the next call of `dequeue` is on a queue with one node. -/
theorem null_iff_no_nodes_witness :
    (bumpAlloc : Allocator ThreadControlBlock).Sound ∧
    (bumpAlloc : Allocator Queue.Node).Sound ∧
    (∀ t ∈ enqueued [Op.enqueue 11, Op.enqueue 22, Op.dequeue], t ≠ nullptr) ∧
    [Op.enqueue 11, Op.enqueue 22, Op.dequeue].length ≤ 3 ∧
    ((∃ m q out ns m' q' r,
        ReadyQueue.run bumpAlloc 3 [Op.enqueue 11, Op.enqueue 22, Op.dequeue] ∅ ReadyQueue.new
          = some (m, q, out) ∧
        Chain m q.head ns ∧ ReadyQueue.dequeue m q = some (m', q', r) ∧
        (r = nullptr ↔ ns = [])) ∧
     (∃ m q out ns m' q' r,
        Queue.run bumpAlloc 3 [Op.enqueue 11, Op.enqueue 22, Op.dequeue] ∅ Queue.new
          = some (m, q, out) ∧
        QChain m q.head ns ∧ Queue.dequeue m q = some (m', q', r) ∧
        (r = nullptr ↔ ns = []))) :=
  ⟨bumpAlloc_sound, bumpAlloc_sound, by decide, by decide,
    null_iff_no_nodes bumpAlloc bumpAlloc bumpAlloc_sound bumpAlloc_sound 3 _ ∅ ∅
      (by decide) (by decide)⟩

/-- Counterexample to C5 as stated: after `enqueue(nullptr)` on a fresh queue
the queue holds one node, and `dequeue()` returns the null pointer all the
same.  It is so for `ReadyQueue` and for `Queue<T>`. -/
theorem null_returned_from_nonempty_queue :
    (ReadyQueue.run bumpAlloc 1 [Op.enqueue nullptr] ∅ ReadyQueue.new
        = some ((∅ : Heap ThreadControlBlock).insert 1 ⟨nullptr, nullptr⟩, ⟨1⟩, []) ∧
      Chain ((∅ : Heap ThreadControlBlock).insert 1 ⟨nullptr, nullptr⟩)
        (ReadyQueue.mk 1).head [(1, nullptr)] ∧
      ReadyQueue.dequeue ((∅ : Heap ThreadControlBlock).insert 1 ⟨nullptr, nullptr⟩) ⟨1⟩
        = some (∅, ⟨nullptr⟩, nullptr)) ∧
    (Queue.run bumpAlloc 1 [Op.enqueue nullptr] ∅ Queue.new
        = some ((∅ : Heap Queue.Node).insert 1 ⟨nullptr, nullptr⟩, ⟨1⟩, []) ∧
      QChain ((∅ : Heap Queue.Node).insert 1 ⟨nullptr, nullptr⟩)
        (Queue.mk 1).head [(1, nullptr)] ∧
      Queue.dequeue ((∅ : Heap Queue.Node).insert 1 ⟨nullptr, nullptr⟩) ⟨1⟩
        = some (∅, ⟨nullptr⟩, nullptr)) ∧
    ¬ ((nullptr : Ptr) = nullptr ↔ ([(1, nullptr)] : List (Ptr × Ptr)) = []) :=
  ⟨⟨rfl, by decide, rfl⟩, ⟨rfl, by decide, rfl⟩, by decide⟩

/-- C6. Round robin over the ready queue.  With the thread `r` running and the
threads `q1 .. q(k-1)` in the `ReadyQueue`, in that order, all `k` pairwise
distinct, one step (enqueue the running thread, then dequeue and run what is
returned) dispatches the head of the queue and leaves the thread that ran at
the tail; `k` steps dispatch `q1, .., q(k-1), r` in that order, each exactly
once, and end with `r` running and the queue holding `q1 .. q(k-1)` again. -/
theorem round_robin_cycle
    (alloc : Allocator ThreadControlBlock) (hs : alloc.Sound) (fuel : Nat)
    (m : Heap ThreadControlBlock) (q : ReadyQueue) (ns : List (Ptr × Ptr)) (r : Ptr)
    (hc : Chain m q.head ns) (hf : ns.length ≤ fuel) (hd : (r :: handles ns).Nodup) :
    (∃ m' q' ns', ReadyQueue.rotations alloc fuel (ns.length + 1) m q r
          = some (m', q', r, handles ns ++ [r]) ∧
        Chain m' q'.head ns' ∧ handles ns' = handles ns) ∧
    (∀ h ∈ r :: handles ns, (handles ns ++ [r]).count h = 1) ∧
    (∃ m' q' a, ReadyQueue.rotate alloc fuel m q r
          = some (m', q', (handles ns ++ [r]).headD nullptr) ∧
        Chain m' q'.head (ns ++ [(a, r)]).tail) := by
  refine ⟨?_, ?_, ?_⟩
  · obtain ⟨m', q', ns', hr, hc', hh⟩ := rq_rotations_sim hs fuel (ns.length + 1) m q ns r hc hf
    have hcyc := listRotations_cycle (handles ns) r
    simp only [handles, List.length_map] at hcyc hr hh
    rw [hcyc] at hr hh
    exact ⟨m', q', ns', hr, hc', hh⟩
  · intro h hmem
    have hnd : (handles ns ++ [r]).Nodup := by
      have hp : (handles ns ++ [r]).Perm (r :: handles ns) := List.perm_append_comm
      exact hp.nodup_iff.2 hd
    exact List.count_eq_one_of_mem hnd (by
      simp only [List.mem_cons] at hmem
      simp only [List.mem_append, List.mem_singleton]
      tauto)
  · obtain ⟨m', q', h1, h2⟩ := rq_rotate_spec hs r hc hf
    exact ⟨m', q', _, h1, h2⟩

/-- Witness of C6 with k = 2: thread 11 runs and thread 22 is queued.  One step
dispatches 22 and leaves 11 the only node of the queue; two steps dispatch 22
and then 11. -/
theorem round_robin_cycle_witness :
    (bumpAlloc : Allocator ThreadControlBlock).Sound ∧
    Chain ((∅ : Heap ThreadControlBlock).insert 1 ⟨22, 0⟩) (ReadyQueue.mk 1).head [(1, 22)] ∧
    [((1 : Ptr), (22 : Ptr))].length ≤ 1 ∧
    ((11 : Ptr) :: handles [(1, 22)]).Nodup ∧
    ReadyQueue.rotate bumpAlloc 1 ((∅ : Heap ThreadControlBlock).insert 1 ⟨22, 0⟩) ⟨1⟩ 11
      = some ((∅ : Heap ThreadControlBlock).insert 2 ⟨11, 0⟩, ⟨2⟩, 22) ∧
    ((∃ m' q' ns', ReadyQueue.rotations bumpAlloc 1 ([((1 : Ptr), (22 : Ptr))].length + 1)
            ((∅ : Heap ThreadControlBlock).insert 1 ⟨22, 0⟩) ⟨1⟩ 11
          = some (m', q', 11, handles [(1, 22)] ++ [11]) ∧
        Chain m' q'.head ns' ∧ handles ns' = handles [(1, 22)]) ∧
     (∀ h ∈ (11 : Ptr) :: handles [(1, 22)], (handles [(1, 22)] ++ [11]).count h = 1) ∧
     (∃ m' q' a, ReadyQueue.rotate bumpAlloc 1
            ((∅ : Heap ThreadControlBlock).insert 1 ⟨22, 0⟩) ⟨1⟩ 11
          = some (m', q', (handles [(1, 22)] ++ [11]).headD nullptr) ∧
        Chain m' q'.head ([((1 : Ptr), (22 : Ptr))] ++ [(a, 11)]).tail)) :=
  ⟨bumpAlloc_sound, by decide, by decide, by decide, rfl,
    round_robin_cycle bumpAlloc bumpAlloc_sound 1 _ ⟨1⟩ [(1, 22)] 11
      (by decide) (by decide) (by decide)⟩

/-- C7, as the code has it.  Neither queue looks for duplicates.  At every
state reached from a freshly constructed ready queue and a freshly constructed
blocked queue by calls of `dequeue` on either queue, and by calls of `enqueue`
on either queue with a thread pointer that neither queue holds when the call
is made, each thread pointer occurs at most once in the two queues taken
together. -/
theorem no_duplicate_under_discipline
    (allocT : Allocator ThreadControlBlock) (allocN : Allocator Queue.Node)
    (hT : allocT.Sound) (hN : allocN.Sound) (s : Queues)
    (hs : Disciplined allocT allocN s) :
    ∃ nsR nsB, Chain s.tcbs s.ready.head nsR ∧ QChain s.nodes s.blocked.head nsB ∧
      (handles nsR ++ handles nsB).Nodup := by
  induction hs with
  | fresh mT mN =>
    exact ⟨[], [], by simp [chain_nil, ReadyQueue.new], by simp [qchain_nil, Queue.new],
      by simp⟩
  | enqueueReady s nsR nsB t fuel m' q' _ hcR hcB ht he ih =>
    obtain ⟨nsR0, nsB0, hR0, hB0, hnd⟩ := ih
    have e1 := chain_unique _ _ _ hR0 hcR
    have e2 := qchain_unique _ _ _ hB0 hcB
    subst e1 e2
    refine ⟨nsR0 ++ [(allocT s.tcbs, t)], nsB0, rq_enqueue_sound hT hcR he, hcB, ?_⟩
    simp only [handles, List.map_append, List.map_cons, List.map_nil, List.mem_append,
      not_or] at ht hnd ⊢
    rw [List.nodup_append] at hnd ⊢
    refine ⟨?_, hnd.2.1, ?_⟩
    · rw [List.nodup_append]
      refine ⟨hnd.1, by simp, ?_⟩
      intro a ha hb
      simp only [List.mem_singleton] at hb
      exact ht.1 (hb ▸ ha)
    · intro a ha hb
      simp only [List.mem_append, List.mem_singleton] at ha
      rcases ha with ha | ha
      · exact hnd.2.2 ha hb
      · exact ht.2 (ha ▸ hb)
  | dequeueReady s m' q' r _ hd ih =>
    obtain ⟨nsR0, nsB0, hR0, hB0, hnd⟩ := ih
    cases nsR0 with
    | nil =>
      have hq : s.ready.head = nullptr := by simpa [chain_nil] using hR0
      rw [rq_dequeue_null s.tcbs hq] at hd
      cases hd
      exact ⟨[], nsB0, hR0, hB0, hnd⟩
    | cons n ns =>
      obtain ⟨nx, hd', hc'⟩ := rq_dequeue_spec hR0
      rw [hd'] at hd
      cases hd
      refine ⟨ns, nsB0, hc', hB0, ?_⟩
      simp only [handles, List.map_cons, List.cons_append, List.nodup_cons] at hnd ⊢
      exact hnd.2
  | enqueueBlocked s nsR nsB t fuel m' q' _ hcR hcB ht he ih =>
    obtain ⟨nsR0, nsB0, hR0, hB0, hnd⟩ := ih
    have e1 := chain_unique _ _ _ hR0 hcR
    have e2 := qchain_unique _ _ _ hB0 hcB
    subst e1 e2
    refine ⟨nsR0, nsB0 ++ [(allocN s.nodes, t)], hcR, bq_enqueue_sound hN hcB he, ?_⟩
    simp only [handles, List.map_append, List.map_cons, List.map_nil, List.mem_append,
      not_or] at ht hnd ⊢
    rw [List.nodup_append] at hnd ⊢
    refine ⟨hnd.1, ?_, ?_⟩
    · rw [List.nodup_append]
      refine ⟨hnd.2.1, by simp, ?_⟩
      intro a ha hb
      simp only [List.mem_singleton] at hb
      exact ht.2 (hb ▸ ha)
    · intro a ha hb
      simp only [List.mem_append, List.mem_singleton] at hb
      rcases hb with hb | hb
      · exact hnd.2.2 ha hb
      · exact ht.1 (hb ▸ ha)
  | dequeueBlocked s m' q' r _ hd ih =>
    obtain ⟨nsR0, nsB0, hR0, hB0, hnd⟩ := ih
    cases nsB0 with
    | nil =>
      have hq : s.blocked.head = nullptr := by simpa [qchain_nil] using hB0
      rw [bq_dequeue_null s.nodes hq] at hd
      cases hd
      exact ⟨nsR0, [], hR0, hB0, hnd⟩
    | cons n ns =>
      obtain ⟨nx, hd', hc'⟩ := bq_dequeue_spec hB0
      rw [hd'] at hd
      cases hd
      refine ⟨nsR0, ns, hR0, hc', ?_⟩
      simp only [handles, List.map_cons] at hnd ⊢
      exact List.Nodup.sublist
        (List.Sublist.append_left (List.sublist_cons_self _ _) _) hnd

/-- Witness of the amended C7: thread 7 is enqueued on the ready queue and then
thread 8 on the blocked queue. -/
theorem no_duplicate_under_discipline_witness :
    (bumpAlloc : Allocator ThreadControlBlock).Sound ∧
    (bumpAlloc : Allocator Queue.Node).Sound ∧
    Disciplined bumpAlloc bumpAlloc
      ⟨(∅ : Heap ThreadControlBlock).insert 1 ⟨7, 0⟩, ⟨1⟩,
        (∅ : Heap Queue.Node).insert 1 ⟨8, 0⟩, ⟨1⟩⟩ ∧
    (∃ nsR nsB,
      Chain (Queues.mk ((∅ : Heap ThreadControlBlock).insert 1 ⟨7, 0⟩) ⟨1⟩
          ((∅ : Heap Queue.Node).insert 1 ⟨8, 0⟩) ⟨1⟩).tcbs
        (Queues.mk ((∅ : Heap ThreadControlBlock).insert 1 ⟨7, 0⟩) ⟨1⟩
          ((∅ : Heap Queue.Node).insert 1 ⟨8, 0⟩) ⟨1⟩).ready.head nsR ∧
      QChain (Queues.mk ((∅ : Heap ThreadControlBlock).insert 1 ⟨7, 0⟩) ⟨1⟩
          ((∅ : Heap Queue.Node).insert 1 ⟨8, 0⟩) ⟨1⟩).nodes
        (Queues.mk ((∅ : Heap ThreadControlBlock).insert 1 ⟨7, 0⟩) ⟨1⟩
          ((∅ : Heap Queue.Node).insert 1 ⟨8, 0⟩) ⟨1⟩).blocked.head nsB ∧
      (handles nsR ++ handles nsB).Nodup) :=
  have hd : Disciplined bumpAlloc bumpAlloc
      ⟨(∅ : Heap ThreadControlBlock).insert 1 ⟨7, 0⟩, ⟨1⟩,
        (∅ : Heap Queue.Node).insert 1 ⟨8, 0⟩, ⟨1⟩⟩ :=
    Disciplined.enqueueBlocked
      ⟨(∅ : Heap ThreadControlBlock).insert 1 ⟨7, 0⟩, ⟨1⟩, ∅, Queue.new⟩
      [(1, 7)] [] 8 0 _ _
      (Disciplined.enqueueReady ⟨∅, ReadyQueue.new, ∅, Queue.new⟩ [] [] 7 0 _ _
        (Disciplined.fresh ∅ ∅) (by decide) (by decide) (by decide) rfl)
      (by decide) (by decide) (by decide) rfl
  ⟨bumpAlloc_sound, bumpAlloc_sound, hd,
    no_duplicate_under_discipline bumpAlloc bumpAlloc bumpAlloc_sound bumpAlloc_sound _ hd⟩

/-- Counterexample to C7 as stated: `enqueue(7)` on a fresh ready queue and
`enqueue(7)` on a fresh blocked queue both go through, and thread 7 is then in
both queues; `enqueue(7)` twice on the ready queue leaves it there twice. -/
theorem same_thread_in_both_queues :
    ReadyQueue.run bumpAlloc 1 [Op.enqueue 7] ∅ ReadyQueue.new
      = some ((∅ : Heap ThreadControlBlock).insert 1 ⟨7, nullptr⟩, ⟨1⟩, []) ∧
    Queue.run bumpAlloc 1 [Op.enqueue 7] ∅ Queue.new
      = some ((∅ : Heap Queue.Node).insert 1 ⟨7, nullptr⟩, ⟨1⟩, []) ∧
    Chain ((∅ : Heap ThreadControlBlock).insert 1 ⟨7, nullptr⟩) (ReadyQueue.mk 1).head [(1, 7)] ∧
    QChain ((∅ : Heap Queue.Node).insert 1 ⟨7, nullptr⟩) (Queue.mk 1).head [(1, 7)] ∧
    ¬ (handles [((1 : Ptr), (7 : Ptr))] ++ handles [((1 : Ptr), (7 : Ptr))]).Nodup ∧
    ReadyQueue.run bumpAlloc 1 [Op.enqueue 7, Op.enqueue 7] ∅ ReadyQueue.new
      = some (((∅ : Heap ThreadControlBlock).insert 2 ⟨7, nullptr⟩).insert 1 ⟨7, 2⟩, ⟨1⟩, []) ∧
    Chain (((∅ : Heap ThreadControlBlock).insert 2 ⟨7, nullptr⟩).insert 1 ⟨7, 2⟩)
      (ReadyQueue.mk 1).head [(1, 7), (2, 7)] ∧
    ¬ (handles [((1 : Ptr), (7 : Ptr)), (2, 7)]).Nodup :=
  ⟨rfl, rfl, by decide, by decide, by decide, rfl, by decide, by decide⟩

/-- C8. No node leaks.  For every queue reached from a freshly constructed one
by calls of `enqueue` and `dequeue`, the loop of the destructor ends, hands to
`delete` each node still in the queue exactly once (the addresses deleted are
those of the nodes, each live before and none live after, no address twice),
and leaves `head` null.  One node is allocated per `enqueue` and one freed per
`dequeue` on a queue with nodes and per turn of the destructor loop, so as
many nodes are freed as were allocated; the heap after destruction has the
cells it had before the queue was constructed, and no others.  This holds for
`~ReadyQueue` and for `~Queue<T>`. -/
theorem destructor_frees_every_node
    (allocT : Allocator ThreadControlBlock) (allocN : Allocator Queue.Node)
    (hT : allocT.Sound) (hN : allocN.Sound) (fuel : Nat) (ops : List Op)
    (mT : Heap ThreadControlBlock) (mN : Heap Queue.Node) (hf : ops.length ≤ fuel) :
    (∃ m q out ns m', ReadyQueue.run allocT fuel ops mT ReadyQueue.new = some (m, q, out) ∧
        Chain m q.head ns ∧
        ReadyQueue.destroy fuel m q = some (m', ⟨nullptr⟩, addrs ns) ∧
        (addrs ns).Nodup ∧ (∀ a ∈ addrs ns, m.lookup a ≠ none ∧ m'.lookup a = none) ∧
        (enqueued ops).length = removals out + (addrs ns).length ∧
        (∀ a, m'.lookup a = mT.lookup a) ∧ m'.entries.length = mT.entries.length) ∧
    (∃ m q out ns m', Queue.run allocN fuel ops mN Queue.new = some (m, q, out) ∧
        QChain m q.head ns ∧
        Queue.destroy fuel m q = some (m', ⟨nullptr⟩, addrs ns) ∧
        (addrs ns).Nodup ∧ (∀ a ∈ addrs ns, m.lookup a ≠ none ∧ m'.lookup a = none) ∧
        (enqueued ops).length = removals out + (addrs ns).length ∧
        (∀ a, m'.lookup a = mN.lookup a) ∧ m'.entries.length = mN.entries.length) := by
  obtain ⟨m1, q1, ns1, m1', h1⟩ := rq_destroy_after_run hT mT ops hf
  obtain ⟨m2, q2, ns2, m2', h2⟩ := bq_destroy_after_run hN mN ops hf
  exact ⟨⟨m1, q1, _, ns1, m1', h1⟩, ⟨m2, q2, _, ns2, m2', h2⟩⟩

/-- Witness of C8: three threads are enqueued and one is dequeued, from the
empty heap; the destructor deletes the two nodes left and the heap is empty
again. -/
theorem destructor_frees_every_node_witness :
    (bumpAlloc : Allocator ThreadControlBlock).Sound ∧
    (bumpAlloc : Allocator Queue.Node).Sound ∧
    [Op.enqueue 11, Op.enqueue 22, Op.dequeue, Op.enqueue 33].length ≤ 4 ∧
    (ReadyQueue.run bumpAlloc 4 [Op.enqueue 11, Op.enqueue 22, Op.dequeue, Op.enqueue 33]
        ∅ ReadyQueue.new).bind (fun s => ReadyQueue.destroy 4 s.1 s.2.1)
      = some (∅, ⟨nullptr⟩, [2, 3]) ∧
    ((∃ m q out ns m',
        ReadyQueue.run bumpAlloc 4 [Op.enqueue 11, Op.enqueue 22, Op.dequeue, Op.enqueue 33]
          ∅ ReadyQueue.new = some (m, q, out) ∧
        Chain m q.head ns ∧
        ReadyQueue.destroy 4 m q = some (m', ⟨nullptr⟩, addrs ns) ∧
        (addrs ns).Nodup ∧ (∀ a ∈ addrs ns, m.lookup a ≠ none ∧ m'.lookup a = none) ∧
        (enqueued [Op.enqueue 11, Op.enqueue 22, Op.dequeue, Op.enqueue 33]).length
          = removals out + (addrs ns).length ∧
        (∀ a, m'.lookup a = (∅ : Heap ThreadControlBlock).lookup a) ∧
        m'.entries.length = (∅ : Heap ThreadControlBlock).entries.length) ∧
     (∃ m q out ns m',
        Queue.run bumpAlloc 4 [Op.enqueue 11, Op.enqueue 22, Op.dequeue, Op.enqueue 33]
          ∅ Queue.new = some (m, q, out) ∧
        QChain m q.head ns ∧
        Queue.destroy 4 m q = some (m', ⟨nullptr⟩, addrs ns) ∧
        (addrs ns).Nodup ∧ (∀ a ∈ addrs ns, m.lookup a ≠ none ∧ m'.lookup a = none) ∧
        (enqueued [Op.enqueue 11, Op.enqueue 22, Op.dequeue, Op.enqueue 33]).length
          = removals out + (addrs ns).length ∧
        (∀ a, m'.lookup a = (∅ : Heap Queue.Node).lookup a) ∧
        m'.entries.length = (∅ : Heap Queue.Node).entries.length)) :=
  ⟨bumpAlloc_sound, bumpAlloc_sound, by decide, rfl,
    destructor_frees_every_node bumpAlloc bumpAlloc bumpAlloc_sound bumpAlloc_sound 4 _ ∅ ∅
      (by decide)⟩

/-- C9. The ready queue and the blocked queue have the same shape.  The same
finite sequence of calls of `enqueue` and `dequeue`, made on a fresh
`ReadyQueue` and on a fresh `Queue<Thread>`, returns in both, makes every call
of `dequeue` return the same value in both (a thread pointer or the null
pointer, on a queue with nodes or without), and leaves both queues holding the
same thread pointers in the same order.  So the blocked queue too hands out
thread pointers in the order of their arrival: those taken out followed by
those left are those put in. -/
theorem same_shape
    (allocT : Allocator ThreadControlBlock) (allocN : Allocator Queue.Node)
    (hT : allocT.Sound) (hN : allocN.Sound) (fuelT fuelN : Nat) (ops : List Op)
    (mT : Heap ThreadControlBlock) (mN : Heap Queue.Node)
    (hfT : ops.length ≤ fuelT) (hfN : ops.length ≤ fuelN) :
    ∃ mT' qT mN' qN out nsT nsN,
      ReadyQueue.run allocT fuelT ops mT ReadyQueue.new = some (mT', qT, out) ∧
      Queue.run allocN fuelN ops mN Queue.new = some (mN', qN, out) ∧
      Chain mT' qT.head nsT ∧ QChain mN' qN.head nsN ∧ handles nsT = handles nsN ∧
      ((out.filter (fun d => !d.onEmpty)).map Dequeued.value ++ handles nsN = enqueued ops) := by
  obtain ⟨m1, q1, ns1, hr1, hc1, _, hh1⟩ := rq_run_fresh hT mT ops hfT
  obtain ⟨m2, q2, ns2, hr2, hc2, _, hh2⟩ := bq_run_fresh hN mN ops hfN
  refine ⟨m1, q1, m2, q2, _, ns1, ns2, hr1, hr2, hc1, hc2, hh1.trans hh2.symm, ?_⟩
  rw [hh2]
  simpa using listRun_fifo ops []

/-- Witness of C9: the same five calls on both queues. -/
theorem same_shape_witness :
    (bumpAlloc : Allocator ThreadControlBlock).Sound ∧
    (bumpAlloc : Allocator Queue.Node).Sound ∧
    [Op.dequeue, Op.enqueue 11, Op.enqueue 22, Op.dequeue, Op.enqueue 11].length ≤ 5 ∧
    [Op.dequeue, Op.enqueue 11, Op.enqueue 22, Op.dequeue, Op.enqueue 11].length ≤ 7 ∧
    (∃ mT' qT mN' qN out nsT nsN,
      ReadyQueue.run bumpAlloc 5
          [Op.dequeue, Op.enqueue 11, Op.enqueue 22, Op.dequeue, Op.enqueue 11]
          ∅ ReadyQueue.new = some (mT', qT, out) ∧
      Queue.run bumpAlloc 7
          [Op.dequeue, Op.enqueue 11, Op.enqueue 22, Op.dequeue, Op.enqueue 11]
          ((∅ : Heap Queue.Node).insert 1 ⟨5, 0⟩) Queue.new = some (mN', qN, out) ∧
      Chain mT' qT.head nsT ∧ QChain mN' qN.head nsN ∧ handles nsT = handles nsN ∧
      ((out.filter (fun d => !d.onEmpty)).map Dequeued.value ++ handles nsN
        = enqueued [Op.dequeue, Op.enqueue 11, Op.enqueue 22, Op.dequeue, Op.enqueue 11])) :=
  ⟨bumpAlloc_sound, bumpAlloc_sound, by decide, by decide,
    same_shape bumpAlloc bumpAlloc bumpAlloc_sound bumpAlloc_sound 5 7 _ ∅ _
      (by decide) (by decide)⟩

/-- C10. The number of nodes.  On a queue holding the nodes `ns`, `enqueue`
leaves one node more; `dequeue` leaves one node less when there is a node and
leaves none when there is none.  After any sequence of calls on a fresh queue
the number of nodes is the number of calls of `enqueue` minus the number of
calls of `dequeue` made on a queue with a node, a difference that is never
negative.  This holds for `ReadyQueue` and for `Queue<T>`. -/
theorem node_count
    (allocT : Allocator ThreadControlBlock) (allocN : Allocator Queue.Node)
    (hT : allocT.Sound) (hN : allocN.Sound) (fuel : Nat) (x : Ptr) (ops : List Op)
    (mT : Heap ThreadControlBlock) (qT : ReadyQueue) (nsT : List (Ptr × Ptr))
    (hcT : Chain mT qT.head nsT) (hfT : nsT.length ≤ fuel)
    (mN : Heap Queue.Node) (qN : Queue) (nsN : List (Ptr × Ptr))
    (hcN : QChain mN qN.head nsN) (hfN : nsN.length ≤ fuel)
    (m0T : Heap ThreadControlBlock) (m0N : Heap Queue.Node) (hf : ops.length ≤ fuel) :
    ((∃ m' q' ns', ReadyQueue.enqueue allocT fuel mT qT x = some (m', q') ∧
          Chain m' q'.head ns' ∧ ns'.length = nsT.length + 1) ∧
      (∃ m' q' r ns', ReadyQueue.dequeue mT qT = some (m', q', r) ∧ Chain m' q'.head ns' ∧
          (nsT ≠ [] → ns'.length + 1 = nsT.length) ∧ (nsT = [] → ns'.length = 0)) ∧
      (∃ m q out ns, ReadyQueue.run allocT fuel ops m0T ReadyQueue.new = some (m, q, out) ∧
          Chain m q.head ns ∧
          (ns.length : Int) = ((enqueued ops).length : Int) - (removals out : Int) ∧
          removals out ≤ (enqueued ops).length)) ∧
    ((∃ m' q' ns', Queue.enqueue allocN fuel mN qN x = some (m', q') ∧
          QChain m' q'.head ns' ∧ ns'.length = nsN.length + 1) ∧
      (∃ m' q' r ns', Queue.dequeue mN qN = some (m', q', r) ∧ QChain m' q'.head ns' ∧
          (nsN ≠ [] → ns'.length + 1 = nsN.length) ∧ (nsN = [] → ns'.length = 0)) ∧
      (∃ m q out ns, Queue.run allocN fuel ops m0N Queue.new = some (m, q, out) ∧
          QChain m q.head ns ∧
          (ns.length : Int) = ((enqueued ops).length : Int) - (removals out : Int) ∧
          removals out ≤ (enqueued ops).length)) := by
  obtain ⟨m1, q1, h1, hc1, _⟩ := rq_enqueue_spec hT x hcT hfT
  obtain ⟨m2, q2, h2, hc2, _⟩ := bq_enqueue_spec hN x hcN hfN
  exact ⟨⟨⟨m1, q1, _, h1, hc1, by simp⟩, rq_dequeue_count hcT, rq_run_count hT m0T ops hf⟩,
    ⟨⟨m2, q2, _, h2, hc2, by simp⟩, bq_dequeue_count hcN, bq_run_count hN m0N ops hf⟩⟩

/-- Witness of C10: queues holding two nodes, and a run of five calls, one of
them a `dequeue` on the empty queue. -/
theorem node_count_witness :
    (bumpAlloc : Allocator ThreadControlBlock).Sound ∧
    (bumpAlloc : Allocator Queue.Node).Sound ∧
    Chain (((∅ : Heap ThreadControlBlock).insert 2 ⟨8, 0⟩).insert 1 ⟨7, 2⟩)
      (ReadyQueue.mk 1).head [(1, 7), (2, 8)] ∧
    [((1 : Ptr), (7 : Ptr)), (2, 8)].length ≤ 5 ∧
    QChain (((∅ : Heap Queue.Node).insert 5 ⟨8, 0⟩).insert 3 ⟨7, 5⟩)
      (Queue.mk 3).head [(3, 7), (5, 8)] ∧
    [((3 : Ptr), (7 : Ptr)), (5, 8)].length ≤ 5 ∧
    [Op.dequeue, Op.enqueue 11, Op.enqueue 22, Op.dequeue, Op.enqueue 33].length ≤ 5 ∧
    (((∃ m' q' ns', ReadyQueue.enqueue bumpAlloc 5
            (((∅ : Heap ThreadControlBlock).insert 2 ⟨8, 0⟩).insert 1 ⟨7, 2⟩) ⟨1⟩ 9
              = some (m', q') ∧
          Chain m' q'.head ns' ∧ ns'.length = [((1 : Ptr), (7 : Ptr)), (2, 8)].length + 1) ∧
      (∃ m' q' r ns', ReadyQueue.dequeue
            (((∅ : Heap ThreadControlBlock).insert 2 ⟨8, 0⟩).insert 1 ⟨7, 2⟩) ⟨1⟩
              = some (m', q', r) ∧ Chain m' q'.head ns' ∧
          ([((1 : Ptr), (7 : Ptr)), (2, 8)] ≠ [] →
            ns'.length + 1 = [((1 : Ptr), (7 : Ptr)), (2, 8)].length) ∧
          ([((1 : Ptr), (7 : Ptr)), (2, 8)] = [] → ns'.length = 0)) ∧
      (∃ m q out ns, ReadyQueue.run bumpAlloc 5
            [Op.dequeue, Op.enqueue 11, Op.enqueue 22, Op.dequeue, Op.enqueue 33]
            ∅ ReadyQueue.new = some (m, q, out) ∧
          Chain m q.head ns ∧
          (ns.length : Int) = ((enqueued
            [Op.dequeue, Op.enqueue 11, Op.enqueue 22, Op.dequeue, Op.enqueue 33]).length : Int)
              - (removals out : Int) ∧
          removals out ≤ (enqueued
            [Op.dequeue, Op.enqueue 11, Op.enqueue 22, Op.dequeue, Op.enqueue 33]).length)) ∧
     ((∃ m' q' ns', Queue.enqueue bumpAlloc 5
            (((∅ : Heap Queue.Node).insert 5 ⟨8, 0⟩).insert 3 ⟨7, 5⟩) ⟨3⟩ 9 = some (m', q') ∧
          QChain m' q'.head ns' ∧ ns'.length = [((3 : Ptr), (7 : Ptr)), (5, 8)].length + 1) ∧
      (∃ m' q' r ns', Queue.dequeue
            (((∅ : Heap Queue.Node).insert 5 ⟨8, 0⟩).insert 3 ⟨7, 5⟩) ⟨3⟩
              = some (m', q', r) ∧ QChain m' q'.head ns' ∧
          ([((3 : Ptr), (7 : Ptr)), (5, 8)] ≠ [] →
            ns'.length + 1 = [((3 : Ptr), (7 : Ptr)), (5, 8)].length) ∧
          ([((3 : Ptr), (7 : Ptr)), (5, 8)] = [] → ns'.length = 0)) ∧
      (∃ m q out ns, Queue.run bumpAlloc 5
            [Op.dequeue, Op.enqueue 11, Op.enqueue 22, Op.dequeue, Op.enqueue 33]
            ∅ Queue.new = some (m, q, out) ∧
          QChain m q.head ns ∧
          (ns.length : Int) = ((enqueued
            [Op.dequeue, Op.enqueue 11, Op.enqueue 22, Op.dequeue, Op.enqueue 33]).length : Int)
              - (removals out : Int) ∧
          removals out ≤ (enqueued
            [Op.dequeue, Op.enqueue 11, Op.enqueue 22, Op.dequeue, Op.enqueue 33]).length))) :=
  ⟨bumpAlloc_sound, bumpAlloc_sound, by decide, by decide, by decide, by decide, by decide,
    node_count bumpAlloc bumpAlloc bumpAlloc_sound bumpAlloc_sound 5 9 _
      _ ⟨1⟩ [(1, 7), (2, 8)] (by decide) (by decide)
      _ ⟨3⟩ [(3, 7), (5, 8)] (by decide) (by decide) ∅ ∅ (by decide)⟩

/-- C11. Queues without duplicates stay so under disciplined use.  On a queue
in which each thread pointer occurs at most once, `dequeue()` returns and
leaves a queue in which each thread pointer occurs at most once, and the value
it returned does not occur in the queue afterwards; `enqueue(x)` returns and
leaves such a queue whenever `x` does not occur in the queue before the call.
This holds for `ReadyQueue` and for `Queue<T>`. -/
theorem nodup_preserved
    (allocT : Allocator ThreadControlBlock) (allocN : Allocator Queue.Node)
    (hT : allocT.Sound) (hN : allocN.Sound) (fuel : Nat) (x : Ptr)
    (mT : Heap ThreadControlBlock) (qT : ReadyQueue) (nsT : List (Ptr × Ptr))
    (hcT : Chain mT qT.head nsT) (hfT : nsT.length ≤ fuel) (hndT : (handles nsT).Nodup)
    (mN : Heap Queue.Node) (qN : Queue) (nsN : List (Ptr × Ptr))
    (hcN : QChain mN qN.head nsN) (hfN : nsN.length ≤ fuel) (hndN : (handles nsN).Nodup) :
    ((∃ m' q' r ns', ReadyQueue.dequeue mT qT = some (m', q', r) ∧ Chain m' q'.head ns' ∧
          (handles ns').Nodup ∧ r ∉ handles ns') ∧
      (x ∉ handles nsT →
        ∃ m' q' ns', ReadyQueue.enqueue allocT fuel mT qT x = some (m', q') ∧
          Chain m' q'.head ns' ∧ handles ns' = handles nsT ++ [x] ∧ (handles ns').Nodup)) ∧
    ((∃ m' q' r ns', Queue.dequeue mN qN = some (m', q', r) ∧ QChain m' q'.head ns' ∧
          (handles ns').Nodup ∧ r ∉ handles ns') ∧
      (x ∉ handles nsN →
        ∃ m' q' ns', Queue.enqueue allocN fuel mN qN x = some (m', q') ∧
          QChain m' q'.head ns' ∧ handles ns' = handles nsN ++ [x] ∧ (handles ns').Nodup)) :=
  ⟨⟨rq_dequeue_nodup hcT hndT, fun hx => rq_enqueue_nodup hT x hcT hfT hndT hx⟩,
    ⟨bq_dequeue_nodup hcN hndN, fun hx => bq_enqueue_nodup hN x hcN hfN hndN hx⟩⟩

/-- Witness of C11: both queues hold the thread pointers 7, 8, and 9 is not in
either. -/
theorem nodup_preserved_witness :
    (bumpAlloc : Allocator ThreadControlBlock).Sound ∧
    (bumpAlloc : Allocator Queue.Node).Sound ∧
    Chain (((∅ : Heap ThreadControlBlock).insert 2 ⟨8, 0⟩).insert 1 ⟨7, 2⟩)
      (ReadyQueue.mk 1).head [(1, 7), (2, 8)] ∧
    [((1 : Ptr), (7 : Ptr)), (2, 8)].length ≤ 2 ∧
    (handles [((1 : Ptr), (7 : Ptr)), (2, 8)]).Nodup ∧
    QChain (((∅ : Heap Queue.Node).insert 5 ⟨8, 0⟩).insert 3 ⟨7, 5⟩)
      (Queue.mk 3).head [(3, 7), (5, 8)] ∧
    [((3 : Ptr), (7 : Ptr)), (5, 8)].length ≤ 2 ∧
    (handles [((3 : Ptr), (7 : Ptr)), (5, 8)]).Nodup ∧
    (9 : Ptr) ∉ handles [((1 : Ptr), (7 : Ptr)), (2, 8)] ∧
    (9 : Ptr) ∉ handles [((3 : Ptr), (7 : Ptr)), (5, 8)] ∧
    (((∃ m' q' r ns', ReadyQueue.dequeue
            (((∅ : Heap ThreadControlBlock).insert 2 ⟨8, 0⟩).insert 1 ⟨7, 2⟩) ⟨1⟩
              = some (m', q', r) ∧ Chain m' q'.head ns' ∧
          (handles ns').Nodup ∧ r ∉ handles ns') ∧
      ((9 : Ptr) ∉ handles [((1 : Ptr), (7 : Ptr)), (2, 8)] →
        ∃ m' q' ns', ReadyQueue.enqueue bumpAlloc 2
            (((∅ : Heap ThreadControlBlock).insert 2 ⟨8, 0⟩).insert 1 ⟨7, 2⟩) ⟨1⟩ 9
              = some (m', q') ∧
          Chain m' q'.head ns' ∧
          handles ns' = handles [((1 : Ptr), (7 : Ptr)), (2, 8)] ++ [9] ∧
          (handles ns').Nodup)) ∧
     ((∃ m' q' r ns', Queue.dequeue
            (((∅ : Heap Queue.Node).insert 5 ⟨8, 0⟩).insert 3 ⟨7, 5⟩) ⟨3⟩
              = some (m', q', r) ∧ QChain m' q'.head ns' ∧
          (handles ns').Nodup ∧ r ∉ handles ns') ∧
      ((9 : Ptr) ∉ handles [((3 : Ptr), (7 : Ptr)), (5, 8)] →
        ∃ m' q' ns', Queue.enqueue bumpAlloc 2
            (((∅ : Heap Queue.Node).insert 5 ⟨8, 0⟩).insert 3 ⟨7, 5⟩) ⟨3⟩ 9
              = some (m', q') ∧
          QChain m' q'.head ns' ∧
          handles ns' = handles [((3 : Ptr), (7 : Ptr)), (5, 8)] ++ [9] ∧
          (handles ns').Nodup))) :=
  ⟨bumpAlloc_sound, bumpAlloc_sound, by decide, by decide, by decide,
    by decide, by decide, by decide, by decide, by decide,
    nodup_preserved bumpAlloc bumpAlloc bumpAlloc_sound bumpAlloc_sound 2 9
      _ ⟨1⟩ [(1, 7), (2, 8)] (by decide) (by decide) (by decide)
      _ ⟨3⟩ [(3, 7), (5, 8)] (by decide) (by decide) (by decide)⟩

/-- C12. On a queue with a node, `enqueue(x)` then `dequeue()` and `dequeue()`
then `enqueue(x)` both return, the two calls of `dequeue` return the same
thread pointer (that of the head node), and both orders leave the queue
holding the same thread pointers in the same order.  On the empty queue the
two orders differ: `enqueue(x)` then `dequeue()` returns `x` and leaves the
queue empty, `dequeue()` then `enqueue(x)` returns the null pointer and leaves
the queue holding `x`.  This holds for `ReadyQueue` and for `Queue<T>`. -/
theorem enqueue_dequeue_order
    (allocT : Allocator ThreadControlBlock) (allocN : Allocator Queue.Node)
    (hT : allocT.Sound) (hN : allocN.Sound) (fuel : Nat) (x : Ptr)
    (mT : Heap ThreadControlBlock) (qT : ReadyQueue) (nT : Ptr × Ptr) (nsT : List (Ptr × Ptr))
    (hcT : Chain mT qT.head (nT :: nsT)) (hfT : (nT :: nsT).length ≤ fuel)
    (mN : Heap Queue.Node) (qN : Queue) (nN : Ptr × Ptr) (nsN : List (Ptr × Ptr))
    (hcN : QChain mN qN.head (nN :: nsN)) (hfN : (nN :: nsN).length ≤ fuel)
    (m0T : Heap ThreadControlBlock) (m0N : Heap Queue.Node) :
    ((∃ m1 q1 m2 q2 m3 q3 m4 q4 ns2 ns4,
        ReadyQueue.enqueue allocT fuel mT qT x = some (m1, q1) ∧
        ReadyQueue.dequeue m1 q1 = some (m2, q2, nT.2) ∧
        ReadyQueue.dequeue mT qT = some (m3, q3, nT.2) ∧
        ReadyQueue.enqueue allocT fuel m3 q3 x = some (m4, q4) ∧
        Chain m2 q2.head ns2 ∧ Chain m4 q4.head ns4 ∧
        handles ns2 = handles nsT ++ [x] ∧ handles ns4 = handles nsT ++ [x]) ∧
      (∃ m1 q1 m2 q2 m4 q4 a,
        ReadyQueue.enqueue allocT fuel m0T ReadyQueue.new x = some (m1, q1) ∧
        ReadyQueue.dequeue m1 q1 = some (m2, q2, x) ∧
        Chain m2 q2.head [] ∧
        ReadyQueue.dequeue m0T ReadyQueue.new = some (m0T, ReadyQueue.new, nullptr) ∧
        ReadyQueue.enqueue allocT fuel m0T ReadyQueue.new x = some (m4, q4) ∧
        Chain m4 q4.head [(a, x)] ∧ q2.head = nullptr ∧ q4.head ≠ nullptr)) ∧
    ((∃ m1 q1 m2 q2 m3 q3 m4 q4 ns2 ns4,
        Queue.enqueue allocN fuel mN qN x = some (m1, q1) ∧
        Queue.dequeue m1 q1 = some (m2, q2, nN.2) ∧
        Queue.dequeue mN qN = some (m3, q3, nN.2) ∧
        Queue.enqueue allocN fuel m3 q3 x = some (m4, q4) ∧
        QChain m2 q2.head ns2 ∧ QChain m4 q4.head ns4 ∧
        handles ns2 = handles nsN ++ [x] ∧ handles ns4 = handles nsN ++ [x]) ∧
      (∃ m1 q1 m2 q2 m4 q4 a,
        Queue.enqueue allocN fuel m0N Queue.new x = some (m1, q1) ∧
        Queue.dequeue m1 q1 = some (m2, q2, x) ∧
        QChain m2 q2.head [] ∧
        Queue.dequeue m0N Queue.new = some (m0N, Queue.new, nullptr) ∧
        Queue.enqueue allocN fuel m0N Queue.new x = some (m4, q4) ∧
        QChain m4 q4.head [(a, x)] ∧ q2.head = nullptr ∧ q4.head ≠ nullptr)) :=
  ⟨⟨rq_commute hT x hcT hfT, rq_empty_order hT m0T x fuel⟩,
    ⟨bq_commute hN x hcN hfN, bq_empty_order hN m0N x fuel⟩⟩

/-- Witness of C12: both queues hold the thread pointers 7, 8 and 9 is
enqueued; the empty queues start in the empty heap. -/
theorem enqueue_dequeue_order_witness :
    (bumpAlloc : Allocator ThreadControlBlock).Sound ∧
    (bumpAlloc : Allocator Queue.Node).Sound ∧
    Chain (((∅ : Heap ThreadControlBlock).insert 2 ⟨8, 0⟩).insert 1 ⟨7, 2⟩)
      (ReadyQueue.mk 1).head ((1, 7) :: [(2, 8)]) ∧
    (((1 : Ptr), (7 : Ptr)) :: [(2, 8)]).length ≤ 2 ∧
    QChain (((∅ : Heap Queue.Node).insert 5 ⟨8, 0⟩).insert 3 ⟨7, 5⟩)
      (Queue.mk 3).head ((3, 7) :: [(5, 8)]) ∧
    (((3 : Ptr), (7 : Ptr)) :: [(5, 8)]).length ≤ 2 ∧
    (((∃ m1 q1 m2 q2 m3 q3 m4 q4 ns2 ns4,
        ReadyQueue.enqueue bumpAlloc 2
          (((∅ : Heap ThreadControlBlock).insert 2 ⟨8, 0⟩).insert 1 ⟨7, 2⟩) ⟨1⟩ 9
            = some (m1, q1) ∧
        ReadyQueue.dequeue m1 q1 = some (m2, q2, ((1, 7) : Ptr × Ptr).2) ∧
        ReadyQueue.dequeue
          (((∅ : Heap ThreadControlBlock).insert 2 ⟨8, 0⟩).insert 1 ⟨7, 2⟩) ⟨1⟩
            = some (m3, q3, ((1, 7) : Ptr × Ptr).2) ∧
        ReadyQueue.enqueue bumpAlloc 2 m3 q3 9 = some (m4, q4) ∧
        Chain m2 q2.head ns2 ∧ Chain m4 q4.head ns4 ∧
        handles ns2 = handles [((2 : Ptr), (8 : Ptr))] ++ [9] ∧
        handles ns4 = handles [((2 : Ptr), (8 : Ptr))] ++ [9]) ∧
      (∃ m1 q1 m2 q2 m4 q4 a,
        ReadyQueue.enqueue bumpAlloc 2 ∅ ReadyQueue.new 9 = some (m1, q1) ∧
        ReadyQueue.dequeue m1 q1 = some (m2, q2, 9) ∧
        Chain m2 q2.head [] ∧
        ReadyQueue.dequeue (∅ : Heap ThreadControlBlock) ReadyQueue.new
          = some (∅, ReadyQueue.new, nullptr) ∧
        ReadyQueue.enqueue bumpAlloc 2 ∅ ReadyQueue.new 9 = some (m4, q4) ∧
        Chain m4 q4.head [(a, 9)] ∧ q2.head = nullptr ∧ q4.head ≠ nullptr)) ∧
     ((∃ m1 q1 m2 q2 m3 q3 m4 q4 ns2 ns4,
        Queue.enqueue bumpAlloc 2
          (((∅ : Heap Queue.Node).insert 5 ⟨8, 0⟩).insert 3 ⟨7, 5⟩) ⟨3⟩ 9 = some (m1, q1) ∧
        Queue.dequeue m1 q1 = some (m2, q2, ((3, 7) : Ptr × Ptr).2) ∧
        Queue.dequeue
          (((∅ : Heap Queue.Node).insert 5 ⟨8, 0⟩).insert 3 ⟨7, 5⟩) ⟨3⟩
            = some (m3, q3, ((3, 7) : Ptr × Ptr).2) ∧
        Queue.enqueue bumpAlloc 2 m3 q3 9 = some (m4, q4) ∧
        QChain m2 q2.head ns2 ∧ QChain m4 q4.head ns4 ∧
        handles ns2 = handles [((5 : Ptr), (8 : Ptr))] ++ [9] ∧
        handles ns4 = handles [((5 : Ptr), (8 : Ptr))] ++ [9]) ∧
      (∃ m1 q1 m2 q2 m4 q4 a,
        Queue.enqueue bumpAlloc 2 ∅ Queue.new 9 = some (m1, q1) ∧
        Queue.dequeue m1 q1 = some (m2, q2, 9) ∧
        QChain m2 q2.head [] ∧
        Queue.dequeue (∅ : Heap Queue.Node) Queue.new = some (∅, Queue.new, nullptr) ∧
        Queue.enqueue bumpAlloc 2 ∅ Queue.new 9 = some (m4, q4) ∧
        QChain m4 q4.head [(a, 9)] ∧ q2.head = nullptr ∧ q4.head ≠ nullptr))) :=
  ⟨bumpAlloc_sound, bumpAlloc_sound, by decide, by decide, by decide, by decide,
    enqueue_dequeue_order bumpAlloc bumpAlloc bumpAlloc_sound bumpAlloc_sound 2 9
      _ ⟨1⟩ (1, 7) [(2, 8)] (by decide) (by decide)
      _ ⟨3⟩ (3, 7) [(5, 8)] (by decide) (by decide) ∅ ∅⟩

end OSMP
